import Mathlib

/-!
Verification development for the control-flow structuring stage of a
MIPS-to-C decompiler (`src/if_statements.py`).

The Python source is shallowly embedded below.  Nodes of the flow graph are
identified by natural numbers (positions in the flow graph's node list, which
is how the Python object identities behave for a fixed function); the three
node variants (`BasicNode`, `ConditionalNode`, `ReturnNode`) become the
constructors of `NodeKind`.  Branch conditions and return values, which are
opaque to this stage (they come from the external `translate` module), are
modelled by the free condition algebra `Cond`.

Unbounded recursion and `while` loops of the Python source are modelled with
an explicit fuel parameter; running out of fuel yields the distinguished
error `Err.outOfFuel`, raised `DecompFailure`s become `Err.decompFailure`,
and failing `assert` statements become `Err.assertionError`.  A result of the
form `.ok _` therefore corresponds to a genuine terminating execution of the
source program.
-/

namespace MipsToC

/-- Opaque boolean condition algebra (external `translate.Condition`):
`negated` is the external negation hook and `binop` the external
`BinaryOp(left, op, right)` combination used by `join_conditions`. -/
inductive Cond where
  | atom (n : Nat)
  | negated (c : Cond)
  | binop (op : String) (l r : Cond)
deriving Repr, DecidableEq

/-- Modelled from the spec: the external pretty-print/stringify hook of the
Condition Algebra collaborator (`translate.stringify_expr`, not in `src/`).
Any injective rendering is faithful to the spec's "opaque values it can
combine, negate, and print" contract. -/
def stringify_expr : Cond → String
  | .atom n => "x" ++ toString n
  | .negated c => "!" ++ stringify_expr c
  | .binop op l r => "(" ++ stringify_expr l ++ " " ++ op ++ " " ++ stringify_expr r ++ ")"

/-- The three node variants of the external flow-graph model
(`BasicNode`, `ConditionalNode`, `ReturnNode`).  `conditional_edge` is the
taken edge, `fallthrough_edge` the fallthrough edge; ` is_loop` is the
loop-head flag.  A `ReturnNode` carries its optional return value and the
`is_real` flag (`False` for the synthetic sentinel). -/
inductive NodeKind where
  | basic (successor : Nat)
  | conditional (conditional_edge fallthrough_edge : Nat) ( is_loop : Bool) (branch_condition : Cond)
  | ret (return_value : Option Cond) ( is_real : Bool)
deriving Repr, DecidableEq

/-- Per-node data: the block index (`node.block.index`), the node kind, the
parent list (`node.parents`) and whether any of the block's `to_write` items
would be written (used only for the debug node comment). -/
structure NodeData where
  blockIdx : Int
  kind : NodeKind
  parents : List Nat
  any_to_write : Bool := false
deriving Repr

/-- A flow graph: the function's node list (node ids are list positions, the
entry node is node 0, mirroring `flow_graph.entry_node()`) and the optional
function return node (`flow_graph.return_node()`). -/
structure Graph where
  nodes : List NodeData
  returnNode : Option Nat := none

def Graph.size (g : Graph) : Nat := g.nodes.length

/-- Node lookup.  Out-of-range ids behave like the fictive sentinel return
node created by `write_function` (block index `-1`, no value, not real). -/
def Graph.data (g : Graph) (n : Nat) : NodeData :=
  g.nodes.getD n { blockIdx := -1, kind := .ret none false, parents := [] }

def Graph.kind (g : Graph) (n : Nat) : NodeKind := (g.data n).kind

def Graph.idx (g : Graph) (n : Nat) : Int := (g.data n).blockIdx

/-- The successor edges a traversal of this stage actually follows:
a `BasicNode`'s successor, a `ConditionalNode`'s fallthrough edge always and
its taken (conditional) edge only when the node is not a loop head.  The
list order matches the push order of the Python stack-based traversals
(fallthrough is pushed last, hence popped first). -/
def followed (g : Graph) (n : Nat) : List Nat :=
  match g.kind n with
  | .basic s => [s]
  | .conditional ce fe il _ => if il then [fe] else [fe, ce]
  | .ret _ _ => []

/-- All successor edges, including the loop-head taken edge. -/
def edges (g : Graph) (n : Nat) : List Nat :=
  match g.kind n with
  | .basic s => [s]
  | .conditional ce fe _ _ => [fe, ce]
  | .ret _ _ => []

/-- Recognized configuration (`options.Options`). -/
structure Options where
  debug : Bool := false
  ifs : Bool := true
  andor_detection : Bool := true

/-- Per-function structuring state (`Context`).  The memoization cache
`reachable_without` of the source caches a pure function of the immutable
graph and is semantically transparent, so it is not part of the state here;
`return_type` unification is external to this stage and the declared type is
rendered opaquely by `write_function` below. -/
structure Context where
  is_void : Bool := true
  goto_nodes : List Nat := []
  emitted_nodes : List Nat := []
  has_warned : Bool := false

/-- Error outcomes: `decompFailure` is a raised `DecompFailure`,
`assertionError` a failing `assert` (fatal invariant violation), and
`outOfFuel` is the fuel-exhaustion artifact of the embedding. -/
inductive Err where
  | decompFailure
  | assertionError
  | outOfFuel
deriving DecidableEq, Repr

abbrev M (α : Type) : Type := Except Err α

mutual
/-- The Statement Tree model (`SimpleStatement` / `IfElseStatement` /
`LabelStatement`), plus `contentsStmt node indent` standing for the block of
`SimpleStatement`s that `Body.add_node` emits for `node`'s `to_write` items
(their text comes from the external expression renderer, so the dump is kept
as one node-tagged statement). -/
inductive Statement where
  | simpleStmt (indent : Nat) (contents : String)
  | ifElseStmt (cond : Cond) (indent : Nat) (if_body : Body) (else_body : Option Body)
  | labelStmt (node : Nat)
  | contentsStmt (node : Nat) (indent : Nat)
/-- `Body`: print_node_comment flag plus the ordered statement list. -/
inductive Body where
  | mk (print_node_comment : Bool) (statements : List Statement)
end

def Body.statements : Body → List Statement
  | .mk _ s => s

def Body.pnc : Body → Bool
  | .mk p _ => p

/-- Append statements to a body (the source mutates the body in place). -/
def Body.append (b : Body) (l : List Statement) : Body :=
  .mk b.pnc (b.statements ++ l)

/-- Prepend statements to a body (used to assemble the recursive embedding
of the source's sequential appends). -/
def Body.prepend (l : List Statement) (b : Body) : Body :=
  .mk b.pnc (l ++ b.statements)

/-- `label_for_node`. -/
def label_for_node (g : Graph) (n : Nat) : String :=
  "block_" ++ toString (g.idx n)

/-- `emit_goto`: registers the target in `goto_nodes` and produces the goto
statement that the source appends to the body. -/
def emit_goto (g : Graph) (ctx : Context) (target : Nat) (indent : Nat) :
    Context × Statement :=
  ({ ctx with goto_nodes := target :: ctx.goto_nodes },
   .simpleStmt indent ("goto " ++ label_for_node g target ++ ";"))

/-- `Body.add_node`: the optional debug node comment followed by the node's
content statements. -/
def add_node_stmts (g : Graph) (pnc : Bool) (node indent : Nat)
    (commentEmpty : Bool) : List Statement :=
  (if pnc && ((g.data node).any_to_write || commentEmpty) then
    [Statement.simpleStmt indent ("// Node " ++ toString node)]
   else []) ++ [Statement.contentsStmt node indent]

/-- `write_return`: label (only when trailing), node contents, then the
return statement — `return <value>;` (marking the function non-void) when a
value is present, a bare `return;` only when valueless and not trailing. -/
def write_return (g : Graph) (ctx : Context) (pnc : Bool) (node : Nat)
    (indent : Nat) (last : Bool) : M (Context × List Statement) :=
  match g.kind node with
  | .ret rv real =>
    let pre := (if last then [Statement.labelStmt node] else []) ++
      add_node_stmts g pnc node indent real
    match rv with
    | some v =>
        .ok ({ ctx with is_void := false },
             pre ++ [.simpleStmt indent ("return " ++ stringify_expr v ++ ";")])
    | none =>
        if ¬ last then .ok (ctx, pre ++ [.simpleStmt indent "return;"])
        else .ok (ctx, pre)
  | _ => .error .assertionError

/-- `end_reachable_without(context, start, end, without)`.  The memoization
cache caches this pure function and is omitted; the fuel parameter models
the unbounded Python recursion. -/
def end_reachable_without (g : Graph) : Nat → Nat → Nat → Nat → M Bool
  | 0, _, _, _ => .error .outOfFuel
  | fuel+1, start, endN, without =>
    if endN = without ∨ start = without then .ok false
    else if start = endN then .ok true
    else match g.kind start with
      | .basic succ => end_reachable_without g fuel succ endN without
      | .conditional ce fe il _ => do
          let b ← end_reachable_without g fuel fe endN without
          if b then .ok true
          else if !il then end_reachable_without g fuel ce endN without
          else .ok false
      | .ret _ _ => .ok false

/-- The worklist loop of `get_reachable_nodes`: `reach` is the visited set
(as a duplicate-free list), the stack's head is its top. -/
def get_reachable_nodes_loop (g : Graph) : Nat → List Nat → List Nat → M (List Nat)
  | 0, _, _ => .error .outOfFuel
  | _+1, reach, [] => .ok reach
  | fuel+1, reach, node :: stack =>
    if node ∈ reach then get_reachable_nodes_loop g fuel reach stack
    else get_reachable_nodes_loop g fuel (node :: reach) (followed g node ++ stack)

/-- `get_reachable_nodes(start)`. -/
def get_reachable_nodes (g : Graph) (fuel : Nat) (start : Nat) : M (List Nat) :=
  get_reachable_nodes_loop g fuel [] [start]

/-- `max(reachable_nodes, key=lambda n: n.block.index)`. -/
def max_by_idx (g : Graph) : List Nat → Option Nat
  | [] => none
  | x :: xs => some (xs.foldl (fun best y => if g.idx best < g.idx y then y else best) x)

/-- `postdominators.sort(key=lambda node: node.block.index)` followed by
`postdominators[0]`: the first element of minimal block index (Python's sort
is stable, so ties keep the earlier discovery). -/
def earliest (g : Graph) : List Nat → Option Nat
  | [] => none
  | x :: xs => some (xs.foldl (fun best y => if g.idx y < g.idx best then y else best) x)

/-- The candidate-collecting worklist loop of `immediate_postdominator`:
nodes beyond `end`'s block index are skipped, others are expanded and tested
with `end_reachable_without` (called with the fixed fuel `efuel`). -/
def ipd_loop (g : Graph) (efuel : Nat) (start endN : Nat) :
    Nat → List Nat → List Nat → M (List Nat)
  | 0, _, _ => .error .outOfFuel
  | _+1, [], pds => .ok pds
  | fuel+1, node :: stack, pds =>
    if g.idx node > g.idx endN then ipd_loop g efuel start endN fuel stack pds
    else do
      let stack2 := followed g node ++ stack
      let b ← end_reachable_without g efuel start endN node
      if node ≠ start ∧ b = false then
        ipd_loop g efuel start endN fuel stack2 (pds ++ [node])
      else
        ipd_loop g efuel start endN fuel stack2 pds

/-- `immediate_postdominator(context, start, end)`: substitute the reachable
node of largest block index for an unreachable `end`, collect the
postdominator candidates, and return the earliest; the empty-candidate case
is the failing `assert postdominators`. -/
def immediate_postdominator (g : Graph) (fuel : Nat) (start endN : Nat) : M Nat := do
  let reachable ← get_reachable_nodes g fuel start
  let endN := if endN ∈ reachable then endN else (max_by_idx g reachable).getD endN
  let pds ← ipd_loop g fuel start endN fuel [start] []
  match earliest g pds with
  | some p => .ok p
  | none => .error .assertionError

/-- The parent loop of `count_non_postdominated_parents`. -/
def cnpp_loop (g : Graph) (fuel : Nat) (child curr_end : Nat) :
    List Nat → Nat → M Nat
  | [], acc => .ok acc
  | p :: ps, acc => do
    let ip ← immediate_postdominator g fuel p curr_end
    cnpp_loop g fuel child curr_end ps (if ip ≠ child then acc + 1 else acc)

/-- `count_non_postdominated_parents(context, child, curr_end)`: the count of
parents of `child` whose immediate postdominator is not `child`; a count
strictly between 0 and the parent count raises the one-shot
confusing-control-flow warning flag. -/
def count_non_postdominated_parents (g : Graph) (fuel : Nat) (ctx : Context)
    (child curr_end : Nat) : M (Context × Nat) := do
  let count ← cnpp_loop g fuel child curr_end (g.data child).parents 0
  let ctx := if ¬ (count = 0 ∨ count = (g.data child).parents.length) ∧ ¬ ctx.has_warned
    then { ctx with has_warned := true } else ctx
  .ok (ctx, count)

/-- `get_number_of_if_conditions(context, node, curr_end)`: 1 when `&&`/`||`
detection is disabled; otherwise the taken-edge parent count if nonzero, else
the fallthrough-edge parent count. -/
def get_number_of_if_conditions (g : Graph) (fuel : Nat) (opts : Options)
    (ctx : Context) (node curr_end : Nat) : M (Context × Nat) :=
  if !opts.andor_detection then .ok (ctx, 1)
  else match g.kind node with
    | .conditional ce fe _ _ => do
        let r1 ← count_non_postdominated_parents g fuel ctx ce curr_end
        let r2 ← count_non_postdominated_parents g fuel r1.1 fe curr_end
        if r1.2 ≠ 0 then .ok (r2.1, r1.2) else .ok (r2.1, r2.2)
    | _ => .error .assertionError

/-- The inner fold of `join_conditions`: a condition is negated unless
`only_negate_last` is set and it is not the final one (`rest = []` is the
source's `i == len(conditions) - 1`). -/
def jc_fold (op : String) (only_negate_last : Bool) :
    Option Cond → List Cond → Option Cond
  | acc, [] => acc
  | acc, c :: rest =>
    let c2 := if !only_negate_last || rest.isEmpty then c.negated else c
    match acc with
    | none => jc_fold op only_negate_last (some c2) rest
    | some f => jc_fold op only_negate_last (some (.binop op f c2)) rest

/-- `join_conditions(conditions, op, only_negate_last)`. -/
def join_conditions (conditions : List Cond) (op : String)
    (only_negate_last : Bool) : M Cond :=
  if ¬ (op = "&&" ∨ op = "||") then .error .assertionError
  else match jc_fold op only_negate_last none conditions with
    | some c => .ok c
    | none => .error .assertionError

/-- The chain walk of `get_full_if_condition`: consume `count` nodes along
fallthrough edges collecting branch conditions; a non-`Conditional` node in
the chain raises `DecompFailure`.  Returns the collected conditions, the last
chain node (`prev_node`) and the node after the chain (`curr_node`). -/
def collect_conditions (g : Graph) :
    Nat → Nat → Option Nat → List Cond → M (List Cond × Option Nat × Nat)
  | 0, curr, prev, conds => .ok (conds, prev, curr)
  | count+1, curr, _prev, conds =>
    match g.kind curr with
    | .conditional _ fe _ bc =>
        collect_conditions g count fe (some curr) (conds ++ [bc])
    | _ => .error .decompFailure

mutual
/-- `build_flowgraph_between(context, start, end, indent)`: the articulation
walk from `start` (inclusive) to `end` (exclusive).  A non-return node that
was already emitted gets a single goto and ends the region; otherwise it is
marked emitted and its label and contents are written, then the walk advances
(basic: to the successor; conditional: build the if/else block up to the
immediate postdominator and advance there; return: `write_return` and stop).
The fuel argument models the unbounded recursion of the source. -/
def build_flowgraph_between (g : Graph) (opts : Options) :
    Nat → Context → Nat → Nat → Nat → M (Context × Body)
  | 0, _, _, _, _ => .error .outOfFuel
  | fuel+1, ctx, start, endN, indent =>
    if start = endN then .ok (ctx, Body.mk opts.debug [])
    else match g.kind start with
      | .ret _ _ => do
          let r ← write_return g ctx opts.debug start indent false
          .ok (r.1, Body.mk opts.debug r.2)
      | k =>
        if start ∈ ctx.emitted_nodes then
          let r := emit_goto g ctx start indent
          .ok (r.1, Body.mk opts.debug [r.2])
        else
          let ctx2 := { ctx with emitted_nodes := start :: ctx.emitted_nodes }
          let pre := Statement.labelStmt start ::
            add_node_stmts g opts.debug start indent true
          match k with
          | .basic succ => do
              let r ← build_flowgraph_between g opts fuel ctx2 succ endN indent
              .ok (r.1, Body.prepend pre r.2)
          | .conditional _ _ _ _ => do
              let curr_end ← immediate_postdominator g fuel start endN
              let r ← build_conditional_subgraph g opts fuel ctx2 start curr_end indent
              let r2 ← build_flowgraph_between g opts fuel r.1 curr_end endN indent
              .ok (r2.1, Body.prepend (pre ++ [r.2]) r2.2)
          | .ret _ _ => .error .assertionError
termination_by structural fuel _ctx _s _e _i => fuel

/-- `build_conditional_subgraph(context, start, end, indent)`: the if/else
block for a `ConditionalNode` region.  Taken edge equal to `end`: negated
condition, fallthrough body, no else (with the source's assert that both
edges are not `end`).  Fallthrough equal to `end`: condition as-is, taken
body — except for a loop head, whose body is a single goto to the taken edge.
Otherwise count the chain conditions: fewer than 2 gives the plain if/else
(fallthrough body first, chronological order), otherwise delegate to
`get_full_if_condition`. -/
def build_conditional_subgraph (g : Graph) (opts : Options) :
    Nat → Context → Nat → Nat → Nat → M (Context × Statement)
  | 0, _, _, _, _ => .error .outOfFuel
  | fuel+1, ctx, start, endN, indent =>
    match g.kind start with
    | .conditional ce fe il bc =>
      if ce = endN then
        if fe = endN then .error .assertionError
        else do
          let r ← build_flowgraph_between g opts fuel ctx fe endN (indent + 4)
          .ok (r.1, .ifElseStmt bc.negated indent r.2 none)
      else if fe = endN then
        if !il then do
          let r ← build_flowgraph_between g opts fuel ctx ce endN (indent + 4)
          .ok (r.1, .ifElseStmt bc indent r.2 none)
        else
          let r := emit_goto g ctx ce (indent + 4)
          .ok (r.1, .ifElseStmt bc indent (Body.mk false [r.2]) none)
      else do
        let rc ← get_number_of_if_conditions g fuel opts ctx start endN
        if rc.2 < 2 then do
          let r ← build_flowgraph_between g opts fuel rc.1 fe endN (indent + 4)
          let r2 ← build_flowgraph_between g opts fuel r.1 ce endN (indent + 4)
          .ok (r2.1, .ifElseStmt bc.negated indent r.2 (some r2.2))
        else get_full_if_condition g opts fuel rc.1 rc.2 start endN indent
    | _ => .error .assertionError
termination_by structural fuel _ctx _s _e _i => fuel

/-- `get_full_if_condition(context, count, start, curr_end, indent)`: walk the
chain, then build the `||` statement when the walk lands on `start`'s taken
edge (only the last condition negated; if-body from the shared taken target,
else-body from the final chain node's taken edge) and the `&&` statement
otherwise (all conditions negated; if-body from the node after the chain,
else-body from `start`'s taken edge). -/
def get_full_if_condition (g : Graph) (opts : Options) :
    Nat → Context → Nat → Nat → Nat → Nat → M (Context × Statement)
  | 0, _, _, _, _, _ => .error .outOfFuel
  | fuel+1, ctx, count, start, curr_end, indent =>
    match g.kind start with
    | .conditional sce _ _ _ => do
        let w ← collect_conditions g count start none []
        let conditions := w.1
        let curr_node := w.2.2
        if curr_node = sce then
          match w.2.1 with
          | none => .error .assertionError
          | some prev_node =>
            match g.kind prev_node with
            | .conditional pce _ _ _ => do
                let cnd ← join_conditions conditions "||" true
                let r ← build_flowgraph_between g opts fuel ctx sce curr_end (indent + 4)
                let r2 ← build_flowgraph_between g opts fuel r.1 pce curr_end (indent + 4)
                .ok (r2.1, .ifElseStmt cnd indent r.2 (some r2.2))
            | _ => .error .assertionError
        else do
          let cnd ← join_conditions conditions "&&" false
          let r ← build_flowgraph_between g opts fuel ctx curr_node curr_end (indent + 4)
          let r2 ← build_flowgraph_between g opts fuel r.1 sce curr_end (indent + 4)
          .ok (r2.1, .ifElseStmt cnd indent r.2 (some r2.2))
    | _ => .error .assertionError
termination_by structural fuel _ctx _c _s _e _i => fuel
end

/-- `maybe_emit_return` of `build_naive`: inline the return statement only
for a non-real `ReturnNode`. -/
def maybe_emit_return (g : Graph) (ctx : Context) (pnc : Bool) (node : Nat)
    (indent : Nat) : M (Option (Context × List Statement)) :=
  match g.kind node with
  | .ret _ real =>
      if real then .ok none
      else do
        let r ← write_return g ctx pnc node indent false
        .ok (some r)
  | _ => .ok none

/-- `emit_successor` of `build_naive`: inline non-real returns; fall through
when the successor is the next node in linear order; otherwise a goto. -/
def emit_successor (g : Graph) (nodes : List Nat) (ctx : Context) (pnc : Bool)
    (node : Nat) (cur_index : Nat) : M (Context × List Statement) := do
  match ← maybe_emit_return g ctx pnc node 4 with
  | some r => .ok r
  | none =>
    if cur_index + 1 < nodes.length ∧ nodes.getD (cur_index + 1) 0 = node then
      .ok (ctx, [])
    else
      let r := emit_goto g ctx node 4
      .ok (r.1, [r.2])

/-- The linear loop of `build_naive` over the indexed node list: return nodes
are skipped at their own position; a basic node is emitted followed by its
successor transfer; a conditional node is emitted followed by a two-line if
(inline return or goto to the taken edge) and the fallthrough transfer. -/
def build_naive_loop (g : Graph) (opts : Options) (nodes : List Nat) :
    Nat → List Nat → Context → M (Context × List Statement)
  | _, [], ctx => .ok (ctx, [])
  | i, n :: rest, ctx =>
    match g.kind n with
    | .ret _ _ => build_naive_loop g opts nodes (i+1) rest ctx
    | .basic s => do
        let stmts1 := Statement.labelStmt n :: add_node_stmts g opts.debug n 4 true
        let r ← emit_successor g nodes ctx opts.debug s i
        let r2 ← build_naive_loop g opts nodes (i+1) rest r.1
        .ok (r2.1, stmts1 ++ r.2 ++ r2.2)
    | .conditional ce fe _ bc => do
        let stmts1 := Statement.labelStmt n :: add_node_stmts g opts.debug n 4 true
        let rif ← (do
          match ← maybe_emit_return g ctx opts.debug ce 8 with
          | some r => pure r
          | none =>
              let r := emit_goto g ctx ce 8
              pure (r.1, [r.2]))
        let ifstmt := Statement.ifElseStmt bc 4 (Body.mk false rif.2) none
        let r ← emit_successor g nodes rif.1 opts.debug fe i
        let r2 ← build_naive_loop g opts nodes (i+1) rest r.1
        .ok (r2.1, stmts1 ++ [ifstmt] ++ r.2 ++ r2.2)

/-- `build_naive(context, nodes)`. -/
def build_naive (g : Graph) (opts : Options) (ctx : Context) : M (Context × Body) := do
  let ids := List.range g.size
  let r ← build_naive_loop g opts ids 0 ids ctx
  .ok (r.1, Body.mk opts.debug r.2)

/-- `write_function(function_info, options)` up to the Statement Tree and the
rendered return type: build the body with the Structuring Engine or the Naive
Emitter from the entry node (node 0) to the function return node (or the
fictive sentinel `g.size` with block index `-1` when there is none), append
the trailing return when the return node is real, and render `void ` as the
declared type while `is_void` holds (`return_type.to_decl()` is external and
rendered opaquely as `s32 ` otherwise). -/
def write_function (g : Graph) (opts : Options) (fuel : Nat) :
    M (Context × Body × String) := do
  let ctx : Context := {}
  let start : Nat := 0
  let pair : Nat × Bool := match g.returnNode with
    | some r => (r, true)
    | none => (g.size, false)
  let return_node := pair.1
  let r ← if opts.ifs then build_flowgraph_between g opts fuel ctx start return_node 4
          else build_naive g opts ctx
  let r2 ← if pair.2 then do
        let w ← write_return g r.1 opts.debug return_node 4 true
        .ok (w.1, Body.append r.2 w.2)
      else .ok r
  let ret_type := if r2.1.is_void then "void " else "s32 "
  .ok (r2.1, r2.2, ret_type)

mutual
/-- Generic statement-tree counter: sums `p` over a statement and all
statements nested in its bodies. -/
def stmt_count (p : Statement → Nat) : Statement → Nat
  | .simpleStmt i c => p (.simpleStmt i c)
  | .labelStmt n => p (.labelStmt n)
  | .contentsStmt n i => p (.contentsStmt n i)
  | .ifElseStmt c i b e =>
      p (.ifElseStmt c i b e) + body_count p b + opt_body_count p e
termination_by structural s => s
def opt_body_count (p : Statement → Nat) : Option Body → Nat
  | none => 0
  | some b => body_count p b
termination_by structural s => s
def body_count (p : Statement → Nat) : Body → Nat
  | .mk _ stmts => stmts_count p stmts
termination_by structural s => s
def stmts_count (p : Statement → Nat) : List Statement → Nat
  | [] => 0
  | s :: rest => stmt_count p s + stmts_count p rest
termination_by structural s => s
end

/-- Weight function counting the content statements of node `n`. -/
def is_contents_of (n : Nat) : Statement → Nat
  | .contentsStmt m _ => if m = n then 1 else 0
  | _ => 0

/-- How many times node `n`'s block contents appear in a body, at any
nesting depth. -/
def contents_count (n : Nat) (b : Body) : Nat := body_count (is_contents_of n) b

/-- Weight function counting label statements for node `n`. -/
def is_label_of (n : Nat) : Statement → Nat
  | .labelStmt m => if m = n then 1 else 0
  | _ => 0

/-- Weight function counting simple statements with exactly the given
text. -/
def is_simple_with (s : String) : Statement → Nat
  | .simpleStmt _ c => if c = s then 1 else 0
  | _ => 0

/-- Weight function counting `return`-rendering simple statements (both the
bare `return;` and every `return <value>;`). -/
def is_return_stmt : Statement → Nat
  | .simpleStmt _ c => if c.data.take 6 = ['r','e','t','u','r','n'] then 1 else 0
  | _ => 0

/-- Modelled from the spec: the function-level driver (`main`, not in
`src/`), which catches a `StructuringFailure` (`DecompFailure`) coming out of
the Structuring Engine and retries the whole function with the Naive Emitter
with a fresh context; all other errors are fatal to the run. -/
def run_function (g : Graph) (opts : Options) (fuel : Nat) :
    M (Context × Body × String) :=
  match write_function g opts fuel with
  | .error .decompFailure => write_function g { opts with ifs := false } fuel
  | r => r

/-! ## Concrete graphs used by witnesses and counterexamples -/

/-- Shorthand node constructor. -/
def nd (i : Int) (k : NodeKind) (ps : List Nat) : NodeData :=
  { blockIdx := i, kind := k, parents := ps }

/-- The synthetic diamond: entry conditional 0 with taken = 2 (B) and
fallthrough = 1 (A); both A and B fall into the return node 3. -/
def gDia : Graph :=
  { nodes := [
      nd 0 (.conditional 2 1 false (.atom 0)) [],
      nd 1 (.basic 3) [0],
      nd 2 (.basic 3) [0],
      nd 3 (.ret (some (.atom 9)) true) [1, 2]],
    returnNode := some 3 }

/-- Two stacked conditionals that both jump to the early return node 3; the
final return is node 4.  Structuring walks the early return node twice. -/
def gDup : Graph :=
  { nodes := [
      nd 0 (.conditional 3 1 false (.atom 0)) [],
      nd 1 (.conditional 3 2 false (.atom 1)) [0],
      nd 2 (.basic 4) [1],
      nd 3 (.ret (some (.atom 8)) true) [0, 1],
      nd 4 (.ret (some (.atom 9)) true) [2]],
    returnNode := some 4 }

/-- An `&&`-shaped chain 0 → 1 whose conditionals both jump to node 3, so the
final chain node's taken edge equals the start's taken edge while the node
after the chain (node 2) does not. -/
def gAnd : Graph :=
  { nodes := [
      nd 0 (.conditional 3 1 false (.atom 0)) [],
      nd 1 (.conditional 3 2 false (.atom 1)) [0],
      nd 2 (.basic 3) [1],
      nd 3 (.basic 4) [0, 1, 2],
      nd 4 (.ret (some (.atom 9)) true) [3]],
    returnNode := some 4 }

/-- A presumed `&&`/`||` chain of length 2 starting at node 0 whose second
element (node 1) is a `BasicNode`: the chain walk raises `DecompFailure`. -/
def gBrk : Graph :=
  { nodes := [
      nd 0 (.conditional 4 1 false (.atom 0)) [],
      nd 1 (.basic 2) [0],
      nd 2 (.conditional 4 3 false (.atom 2)) [1],
      nd 3 (.basic 5) [2],
      nd 4 (.basic 5) [0, 2],
      nd 5 (.ret (some (.atom 9)) true) [3, 4]],
    returnNode := some 5 }

/-- Two basic nodes jumping to a shared real return node. -/
def gN : Graph :=
  { nodes := [
      nd 0 (.basic 2) [],
      nd 1 (.basic 2) [],
      nd 2 (.ret (some (.atom 9)) true) [0, 1]],
    returnNode := some 2 }

/-- A loop: node 1 is a loop-head conditional whose taken edge jumps back to
node 0 and whose fallthrough is the valueless real return node 2. -/
def gLoop : Graph :=
  { nodes := [
      nd 0 (.basic 1) [1],
      nd 1 (.conditional 0 2 true (.atom 5)) [0],
      nd 2 (.ret none true) [1]],
    returnNode := some 2 }

/-- An `||`-shaped chain: node 0 jumps to the shared body 2 directly, node 1
jumps to the else-part 3 when its (negated) test fails and otherwise falls
through to 2. -/
def gOr : Graph :=
  { nodes := [
      nd 0 (.conditional 2 1 false (.atom 0)) [],
      nd 1 (.conditional 3 2 false (.atom 1)) [0],
      nd 2 (.basic 4) [0, 1],
      nd 3 (.basic 4) [1],
      nd 4 (.ret (some (.atom 9)) true) [2, 3]],
    returnNode := some 4 }

/-- A graph containing a non-real (synthetic) return node 1. -/
def gSyn : Graph :=
  { nodes := [
      nd 0 (.basic 1) [],
      nd 1 (.ret none false) [0]],
    returnNode := none }

/-- A single return node (used with `start = end`). -/
def gOne : Graph :=
  { nodes := [nd 0 (.ret (some (.atom 1)) true) []], returnNode := some 0 }

/-- A function with no return node at all: an infinite loop of two basic
nodes (the structuring walk closes the cycle with a goto). -/
def gVoid : Graph :=
  { nodes := [
      nd 0 (.basic 1) [1],
      nd 1 (.basic 0) [0]],
    returnNode := none }

/-! ## Graph-level predicates, paths and measures -/

def NodeKind.isRet : NodeKind → Bool
  | .ret _ _ => true
  | _ => false

def NodeKind.isConditional : NodeKind → Bool
  | .conditional _ _ _ _ => true
  | _ => false

/-- All edges the traversals follow point strictly forward in block-index
order — equivalently, every backward edge of the graph is the taken edge of a
loop-head `ConditionalNode` (the spec's graph invariant).  Out-of-range nodes
have no followed edges, so they satisfy this vacuously. -/
def Fwd (g : Graph) : Prop :=
  ∀ n u, u ∈ followed g n → g.idx n < g.idx u

/-- Every edge of an in-range node stays in range. -/
def Closed (g : Graph) : Prop :=
  ∀ n u, u ∈ edges g n → u < g.size

/-- Executable check for `Fwd`. -/
def fwdB (g : Graph) : Bool :=
  (List.range g.size).all (fun n => (followed g n).all (fun u => g.idx n < g.idx u))

/-- Executable check for `Closed`. -/
def closedB (g : Graph) : Bool :=
  (List.range g.size).all (fun n => (edges g n).all (fun u => u < g.size))

/-- Executable check that no in-range node is a `ReturnNode`. -/
def noRetB (g : Graph) : Bool :=
  (List.range g.size).all (fun n => !(g.kind n).isRet)

/-- Reachability along the edges the traversals follow. -/
inductive Reach (g : Graph) : Nat → Nat → Prop where
  | refl (s : Nat) : Reach g s s
  | step (s t e : Nat) : t ∈ followed g s → Reach g t e → Reach g s e

/-- `RW g e w s`: `e` is reachable from `s` along followed edges on a path
avoiding `w` — the relational meaning of `end_reachable_without`. -/
inductive RW (g : Graph) (e w : Nat) : Nat → Prop where
  | base : e ≠ w → RW g e w e
  | step (s t : Nat) : s ≠ w → t ∈ followed g s → RW g e w t → RW g e w s

/-- Followed-edge chains in which every expanded node keeps block index at
most `b` — the nodes the `immediate_postdominator` worklist can reach. -/
inductive EChain (g : Graph) (b : Int) : Nat → Nat → Prop where
  | refl (n : Nat) : EChain g b n n
  | step (m t n : Nat) : g.idx m ≤ b → t ∈ followed g m → EChain g b t n →
      EChain g b m n

/-- Termination measure for `end_reachable_without`: one more than the
number of in-range nodes of strictly larger block index. -/
def above (g : Graph) (n : Nat) : Nat :=
  ((Finset.range g.size).filter (fun m => g.idx n < g.idx m)).card + 1

/-- Termination measure for the `immediate_postdominator` worklist (which
has no visited set, so the bound is exponential). -/
def psi (g : Graph) (stack : List Nat) : Nat :=
  (stack.map (fun n => 3 ^ above g n)).sum

/-- Termination measure for the `get_reachable_nodes` worklist. -/
def phi (g : Graph) (reach stack : List Nat) : Nat :=
  stack.length + 2 * (g.size - reach.length) + 1

/-! ## Helper lemmas about the `Except`-based execution monad -/

theorem M.bind_eq_ok {α β : Type} {x : M α} {f : α → M β} {b : β}
    (h : (x >>= f) = .ok b) : ∃ a, x = .ok a ∧ f a = .ok b := by
  cases x with
  | ok a => exact ⟨a, rfl, h⟩
  | error e => exact Except.noConfusion h

theorem M.ok_bind {α β : Type} (a : α) (f : α → M β) :
    ((Except.ok a : M α) >>= f) = f a := rfl


/-- Evaluation helper for counterexamples: how often node `n`'s contents are
emitted by a successful `write_function` run. -/
def emitted_count_of_run (g : Graph) (opts : Options) (fuel n : Nat) : Option Nat :=
  (write_function g opts fuel).toOption.map (fun r => contents_count n r.2.1)

/-- 1 when node `n` is in the context's emitted set, else 0 (used to state
the at-most-once emission invariant). -/
def emitted_flag (ctx : Context) (n : Nat) : Nat :=
  if n ∈ ctx.emitted_nodes then 1 else 0

/-! ## Theorems -/

/-- Shape of `build_conditional_subgraph` for a chain count below 2 with both
edges distinct from the region end: negated condition, if-body from the
fallthrough edge (chronologically first), else-body from the taken edge. -/
theorem bcs_plain_shape (g : Graph) (opts : Options) (fuel : Nat)
    (ctx : Context) (start endN indent ce fe : Nat) (il : Bool) (bc : Cond)
    (ctxa : Context) (k : Nat) (res : Context × Statement)
    (hk : g.kind start = .conditional ce fe il bc)
    (hce : ce ≠ endN) (hfe : fe ≠ endN)
    (hg : get_number_of_if_conditions g fuel opts ctx start endN = .ok (ctxa, k))
    (hlt : k < 2)
    (hres : build_conditional_subgraph g opts (fuel+1) ctx start endN indent = .ok res) :
    ∃ r1 r2,
      build_flowgraph_between g opts fuel ctxa fe endN (indent+4) = .ok r1 ∧
      build_flowgraph_between g opts fuel r1.1 ce endN (indent+4) = .ok r2 ∧
      res = (r2.1, .ifElseStmt bc.negated indent r1.2 (some r2.2)) := by
  simp only [build_conditional_subgraph, hk] at hres
  rw [if_neg hce, if_neg hfe, hg] at hres
  rw [M.ok_bind] at hres
  simp only [if_pos hlt] at hres
  obtain ⟨r1, h1, hres⟩ := M.bind_eq_ok hres
  obtain ⟨r2, h2, hres⟩ := M.bind_eq_ok hres
  exact ⟨r1, r2, h1, h2, (Except.ok.inj hres).symm⟩

/-- C5: for a `ConditionalNode` whose taken and fallthrough edges both differ
from the region end and whose computed chain length is below 2,
`build_conditional_subgraph` yields a plain if/else with the negated branch
condition, if-body the region from the fallthrough edge (chronologically
first) and else-body the region from the taken edge. -/
theorem c5_plain_if_else (g : Graph) (opts : Options) (fuel : Nat)
    (ctx : Context) (start endN indent ce fe : Nat) (il : Bool) (bc : Cond)
    (ctxa : Context) (k : Nat) (res : Context × Statement)
    (hk : g.kind start = .conditional ce fe il bc)
    (hce : ce ≠ endN) (hfe : fe ≠ endN)
    (hg : get_number_of_if_conditions g fuel opts ctx start endN = .ok (ctxa, k))
    (hlt : k < 2)
    (hres : build_conditional_subgraph g opts (fuel+1) ctx start endN indent = .ok res) :
    ∃ r1 r2,
      build_flowgraph_between g opts fuel ctxa fe endN (indent+4) = .ok r1 ∧
      build_flowgraph_between g opts fuel r1.1 ce endN (indent+4) = .ok r2 ∧
      res = (r2.1, .ifElseStmt bc.negated indent r1.2 (some r2.2)) :=
  bcs_plain_shape g opts fuel ctx start endN indent ce fe il bc ctxa k res
    hk hce hfe hg hlt hres

/-- Witness for C5 on the synthetic diamond `gDia`: the immediate
postdominator of the entry conditional is the end node 3, and the plain
if/else takes its if-body from the fallthrough target 1 (A) and its
else-body from the taken target 2 (B). -/
theorem c5_witness :
    immediate_postdominator gDia 20 0 3 = .ok 3 ∧
    ∃ r1 r2,
      build_flowgraph_between gDia {} 19 {} 1 3 8 = .ok r1 ∧
      build_flowgraph_between gDia {} 19 r1.1 2 3 8 = .ok r2 ∧
      (({ goto_nodes := [], emitted_nodes := [2, 1] } : Context),
          Statement.ifElseStmt (Cond.atom 0).negated 4
            (Body.mk false [.labelStmt 1, .contentsStmt 1 8])
            (some (Body.mk false [.labelStmt 2, .contentsStmt 2 8]))) =
        (r2.1, .ifElseStmt (Cond.atom 0).negated 4 r1.2 (some r2.2)) :=
  ⟨rfl,
   c5_plain_if_else gDia {} 19 {} 0 3 4 2 1 false (.atom 0) {} 1
     (({ goto_nodes := [], emitted_nodes := [2, 1] } : Context),
       Statement.ifElseStmt (Cond.atom 0).negated 4
         (Body.mk false [.labelStmt 1, .contentsStmt 1 8])
         (some (Body.mk false [.labelStmt 2, .contentsStmt 2 8])))
     rfl (by decide) (by decide) rfl (by decide) rfl⟩

/-- C6: a loop-head `ConditionalNode` whose fallthrough edge is the region
end produces an if-statement with the branch condition as-is, no else-body,
and an if-body that is a single goto to the taken edge — the loop body is not
entered at this call site. -/
theorem c6_loop_head_goto (g : Graph) (opts : Options) (fuel : Nat)
    (ctx : Context) (start endN indent ce fe : Nat) (bc : Cond)
    (hk : g.kind start = .conditional ce fe true bc)
    (hce : ce ≠ endN) (hfe : fe = endN) :
    build_conditional_subgraph g opts (fuel+1) ctx start endN indent =
      .ok ({ ctx with goto_nodes := ce :: ctx.goto_nodes },
        .ifElseStmt bc indent
          (Body.mk false
            [.simpleStmt (indent+4) ("goto " ++ label_for_node g ce ++ ";")])
          none) := by
  simp only [build_conditional_subgraph, hk]
  rw [if_neg hce, if_pos hfe]
  simp [emit_goto]

/-- Witness for C6 on `gLoop`: node 1 is a loop-head conditional with taken
edge 0 and fallthrough 2, structured as `if (x5) goto block_0;`. -/
theorem c6_witness :
    build_conditional_subgraph gLoop {} 10 {} 1 2 4 =
      .ok (({ goto_nodes := [0] } : Context),
        .ifElseStmt (.atom 5) 4
          (Body.mk false [.simpleStmt 8 ("goto " ++ label_for_node gLoop 0 ++ ";")])
          none) :=
  c6_loop_head_goto gLoop {} 9 {} 1 2 4 0 2 (.atom 5) rfl (by decide) rfl

/-- C7: with compound-condition detection disabled
`get_number_of_if_conditions` returns 1 for any node with an unchanged
context, so a conditional whose edges differ from the region end always
structures as a plain if/else with no `&&`/`||` join; with detection enabled
the taken-edge parent count is returned when nonzero, otherwise the
fallthrough-edge parent count (0 when both are 0). -/
theorem c7_chain_length (g : Graph) (fuel : Nat) (opts : Options)
    (ctx : Context) (node curr_end : Nat) :
    (opts.andor_detection = false →
      get_number_of_if_conditions g fuel opts ctx node curr_end = .ok (ctx, 1)) ∧
    (∀ ce fe il bc ctx2 k, opts.andor_detection = true →
      g.kind node = .conditional ce fe il bc →
      get_number_of_if_conditions g fuel opts ctx node curr_end = .ok (ctx2, k) →
      ∃ r1 r2,
        count_non_postdominated_parents g fuel ctx ce curr_end = .ok r1 ∧
        count_non_postdominated_parents g fuel r1.1 fe curr_end = .ok r2 ∧
        ctx2 = r2.1 ∧ k = (if r1.2 ≠ 0 then r1.2 else r2.2)) ∧
    (∀ endN indent ce fe il bc res, opts.andor_detection = false →
      g.kind node = .conditional ce fe il bc → ce ≠ endN → fe ≠ endN →
      build_conditional_subgraph g opts (fuel+1) ctx node endN indent = .ok res →
      ∃ r1 r2,
        build_flowgraph_between g opts fuel ctx fe endN (indent+4) = .ok r1 ∧
        build_flowgraph_between g opts fuel r1.1 ce endN (indent+4) = .ok r2 ∧
        res = (r2.1, .ifElseStmt bc.negated indent r1.2 (some r2.2))) := by
  refine ⟨fun hoff => ?_, fun ce fe il bc ctx2 k hon hk hg => ?_,
    fun endN indent ce fe il bc res hoff hk hce hfe hres => ?_⟩
  · simp [get_number_of_if_conditions, hoff]
  · rw [get_number_of_if_conditions, hon, hk] at hg
    simp only [Bool.not_true, Bool.false_eq_true, if_false] at hg
    obtain ⟨r1, h1, hg⟩ := M.bind_eq_ok hg
    obtain ⟨r2, h2, hg⟩ := M.bind_eq_ok hg
    refine ⟨r1, r2, h1, h2, ?_⟩
    by_cases hz : r1.2 ≠ 0
    · rw [if_pos hz] at hg ⊢
      have h3 := Prod.mk.inj (Except.ok.inj hg)
      exact ⟨h3.1.symm, h3.2.symm⟩
    · rw [if_neg hz] at hg ⊢
      have h3 := Prod.mk.inj (Except.ok.inj hg)
      exact ⟨h3.1.symm, h3.2.symm⟩
  · have hg : get_number_of_if_conditions g fuel opts ctx node endN = .ok (ctx, 1) := by
      simp [get_number_of_if_conditions, hoff]
    exact bcs_plain_shape g opts fuel ctx node endN indent ce fe il bc ctx 1 res
      hk hce hfe hg (by decide) hres

/-- Witness for C7 on the diamond: detection disabled short-circuits to 1 and
yields the plain if/else; detection enabled computes the parent counts. -/
theorem c7_witness :
    get_number_of_if_conditions gDia 20 { andor_detection := false } {} 0 3 =
      .ok ({}, 1) ∧
    (∃ r1 r2,
      count_non_postdominated_parents gDia 20 {} 2 3 = .ok r1 ∧
      count_non_postdominated_parents gDia 20 r1.1 1 3 = .ok r2 ∧
      ({} : Context) = r2.1 ∧ 1 = (if r1.2 ≠ 0 then r1.2 else r2.2)) ∧
    (∃ r1 r2,
      build_flowgraph_between gDia { andor_detection := false } 19 {} 1 3 8 = .ok r1 ∧
      build_flowgraph_between gDia { andor_detection := false } 19 r1.1 2 3 8 = .ok r2 ∧
      (({ goto_nodes := [], emitted_nodes := [2, 1] } : Context),
          Statement.ifElseStmt (Cond.atom 0).negated 4
            (Body.mk false [.labelStmt 1, .contentsStmt 1 8])
            (some (Body.mk false [.labelStmt 2, .contentsStmt 2 8]))) =
        (r2.1, .ifElseStmt (Cond.atom 0).negated 4 r1.2 (some r2.2))) :=
  ⟨(c7_chain_length gDia 20 { andor_detection := false } {} 0 3).1 rfl,
   (c7_chain_length gDia 20 {} {} 0 3).2.1 2 1 false (.atom 0) {} 1 rfl rfl rfl,
   (c7_chain_length gDia 19 { andor_detection := false } {} 0 3).2.2 3 4 2 1 false
     (.atom 0)
     (({ goto_nodes := [], emitted_nodes := [2, 1] } : Context),
       Statement.ifElseStmt (Cond.atom 0).negated 4
         (Body.mk false [.labelStmt 1, .contentsStmt 1 8])
         (some (Body.mk false [.labelStmt 2, .contentsStmt 2 8])))
     rfl rfl (by decide) (by decide) rfl⟩

/-- C4: a compound-condition chain walk that meets a node that is not a
`ConditionalNode` raises the structuring failure (`DecompFailure`); errors of
the Structuring Engine propagate out of `write_function`; and the
function-level driver retries the whole function with the Naive Emitter
exactly on `decompFailure`, while any other error is fatal. -/
theorem c4_failure_propagation (g : Graph) (opts : Options) (fuel : Nat) :
    (∀ count curr prev conds, (g.kind curr).isConditional = false →
      collect_conditions g (count+1) curr prev conds = .error .decompFailure) ∧
    (∀ rn e, opts.ifs = true → g.returnNode = some rn →
      build_flowgraph_between g opts fuel {} 0 rn 4 = .error e →
      write_function g opts fuel = .error e) ∧
    (∀ e, write_function g opts fuel = .error e →
      run_function g opts fuel =
        (if e = .decompFailure then write_function g { opts with ifs := false } fuel
         else .error e)) := by
  refine ⟨fun count curr prev conds hnc => ?_, fun rn e hifs hrn hb => ?_,
    fun e hw => ?_⟩
  · cases hk : g.kind curr with
    | basic s => rw [collect_conditions, hk]
    | conditional ce fe il bc => rw [hk] at hnc; exact absurd hnc (by simp [NodeKind.isConditional])
    | ret rv rl => rw [collect_conditions, hk]
  · rw [write_function, hrn]
    simp only [hifs, if_true, hb]
    rfl
  · rw [run_function, hw]
    cases e <;> rfl

/-- Witness for C4 on `gBrk`: the presumed chain of length 2 starting at
node 0 meets the basic node 1, the whole structured run fails with
`decompFailure`, and the driver retries with the Naive Emitter. -/
theorem c4_witness :
    collect_conditions gBrk (0+1) 1 (some 0) [.atom 0] = .error .decompFailure ∧
    run_function gBrk {} 30 = write_function gBrk { ifs := false } 30 :=
  ⟨(c4_failure_propagation gBrk {} 30).1 0 1 (some 0) [.atom 0] rfl,
   (c4_failure_propagation gBrk {} 30).2.2 .decompFailure rfl⟩

set_option maxHeartbeats 1000000 in
/-- Counterexample for C1 as stated: on `gDup`, the early return node 3 is
reachable from the entry and its content statements are emitted twice by the
structured pass (once under each conditional), because the emitted-set check
of `build_flowgraph_between` deliberately excludes `ReturnNode`s — so the
"at most once for all node kinds including Terminal nodes" claim fails. -/
theorem c1_counterexample :
    emitted_count_of_run gDup {} 12 3 = some 2 ∧
    (gDup.kind 3).isRet = true ∧
    Reach gDup 0 3 :=
  ⟨rfl, rfl, Reach.step 0 3 3 (by decide) (Reach.refl 3)⟩

/-- Counterexample for C2 as stated: on the single-node graph `gOne` the pair
`(0, 0)` has the end trivially reachable from the start, yet
`immediate_postdominator` finds no postdominator at all and fails the
`assert postdominators` (it returns an error, not a node `p ≠ start` — "at
least one postdominator always exists" is violated for `start = end`). -/
theorem c2_counterexample :
    immediate_postdominator gOne 10 0 0 = .error .assertionError ∧
    Reach gOne 0 0 :=
  ⟨rfl, Reach.refl 0⟩

/-- Counterexample for C3 as stated: on `gAnd` the chain walked from node 0
is `[0, 1]`, the final chain node 1 has taken edge 3 equal to the start's
taken edge 3, so the claim predicts an OR with only the last condition
negated (`x0 || !x1`); but the code discriminates on the node reached after
the chain (node 2, the final fallthrough), which differs from the taken edge,
and produces the AND shape `!x0 && !x1` instead. -/
theorem c3_counterexample :
    collect_conditions gAnd 2 0 none [] = .ok ([.atom 0, .atom 1], some 1, 2) ∧
    gAnd.kind 0 = .conditional 3 1 false (.atom 0) ∧
    gAnd.kind 1 = .conditional 3 2 false (.atom 1) ∧
    join_conditions [.atom 0, .atom 1] "||" true =
      .ok (.binop "||" (.atom 0) ((Cond.atom 1).negated)) ∧
    get_full_if_condition gAnd {} 40 {} 2 0 4 4 =
      .ok (({ goto_nodes := [3], emitted_nodes := [3, 2] } : Context),
        .ifElseStmt (.binop "&&" ((Cond.atom 0).negated) ((Cond.atom 1).negated)) 4
          (Body.mk false [.labelStmt 2, .contentsStmt 2 8, .labelStmt 3, .contentsStmt 3 8])
          (some (Body.mk false [.simpleStmt 8 "goto block_3;"]))) ∧
    (Cond.binop "&&" ((Cond.atom 0).negated) ((Cond.atom 1).negated)) ≠
      .binop "||" (.atom 0) ((Cond.atom 1).negated) :=
  ⟨rfl, rfl, rfl, rfl, rfl, by decide⟩

/-- Counterexample for C9 as stated: in the Naive Emitter on `gN`, node 0
jumps to the real terminal node 2, but the jump site gets a plain
`goto block_2;` and no inline return statement — the claim's "for every jump
whose target is a Terminal node, the terminal's return statement is rendered
inline at the jump site" only holds for non-real terminals. -/
theorem c9_counterexample :
    gN.kind 2 = .ret (some (.atom 9)) true ∧
    build_naive gN {} {} =
      .ok (({ goto_nodes := [2] } : Context),
        Body.mk false [.labelStmt 0, .contentsStmt 0 4,
          .simpleStmt 4 "goto block_2;", .labelStmt 1, .contentsStmt 1 4]) ∧
    body_count is_return_stmt
      (Body.mk false [.labelStmt 0, .contentsStmt 0 4,
        .simpleStmt 4 "goto block_2;", .labelStmt 1, .contentsStmt 1 4]) = 0 :=
  ⟨rfl, rfl, by decide⟩

theorem stmts_count_append (p : Statement → Nat) (a b : List Statement) :
    stmts_count p (a ++ b) = stmts_count p a + stmts_count p b := by
  induction a with
  | nil => simp [stmts_count]
  | cons s rest ih => simp [stmts_count, ih]; omega

theorem is_return_goto (i : Nat) (l : String) :
    is_return_stmt (.simpleStmt i ("goto " ++ l ++ ";")) = 0 := by
  have hd : ("goto " ++ l ++ ";").data =
      'g' :: 'o' :: 't' :: 'o' :: ' ' :: (l.data ++ [';']) := by
    simp [String.data_append]
  simp [is_return_stmt, hd]

theorem is_return_comment (i : Nat) (l : String) :
    is_return_stmt (.simpleStmt i ("// Node " ++ l)) = 0 := by
  have hd : ("// Node " ++ l).data =
      '/' :: '/' :: ' ' :: 'N' :: 'o' :: 'd' :: 'e' :: ' ' :: l.data := by
    simp [String.data_append]
  simp [is_return_stmt, hd]

theorem add_node_count_ret_zero (g : Graph) (pnc : Bool) (node indent : Nat)
    (ce : Bool) :
    stmts_count is_return_stmt (add_node_stmts g pnc node indent ce) = 0 := by
  unfold add_node_stmts
  by_cases h : (pnc && ((g.data node).any_to_write || ce)) = true
  · rw [if_pos h, stmts_count_append]
    simp [stmts_count, stmt_count, is_return_comment, is_return_stmt]
  · rw [if_neg h, stmts_count_append]
    simp [stmts_count, stmt_count, is_return_stmt]

/-- A node whose kind is not a `ReturnNode` is in range (out-of-range lookups
default to the sentinel return data). -/
theorem lt_size_of_not_ret {g : Graph} {n : Nat}
    (h : (g.kind n).isRet = false) : n < g.size := by
  by_contra hge
  have : g.data n = { blockIdx := -1, kind := .ret none false, parents := [] } :=
    List.getD_eq_default _ _ (Nat.le_of_not_lt hge)
  rw [Graph.kind, this] at h
  simp [NodeKind.isRet] at h

theorem lt_size_of_conditional {g : Graph} {n : Nat} {ce fe : Nat} {il : Bool}
    {bc : Cond} (h : g.kind n = .conditional ce fe il bc) : n < g.size :=
  lt_size_of_not_ret (by rw [h]; rfl)

/-- C3 (amended): the chain walk collects `count` conditions along
fallthrough edges; the result is the OR statement exactly when the node
reached after the chain (the final node's fallthrough) equals `start`'s own
taken edge — condition OR-joined with only the last negated, if-body from the
shared taken target, else-body from the final chain node's taken edge — and
otherwise the AND statement — condition AND-joined with every test negated,
if-body from the node after the chain, else-body from `start`'s taken
edge. -/
theorem c3_amended_compound_shape (g : Graph) (opts : Options) (fuel : Nat)
    (ctx : Context) (count start curr_end indent : Nat)
    (sce sfe : Nat) (sil : Bool) (sbc : Cond)
    (conds : List Cond) (prev : Option Nat) (curr : Nat)
    (res : Context × Statement)
    (hk : g.kind start = .conditional sce sfe sil sbc)
    (hw : collect_conditions g count start none [] = .ok (conds, prev, curr))
    (hres : get_full_if_condition g opts (fuel+1) ctx count start curr_end indent
      = .ok res) :
    (curr = sce → ∃ prevN pce pfe pil pbc cnd r1 r2,
      prev = some prevN ∧ g.kind prevN = .conditional pce pfe pil pbc ∧
      join_conditions conds "||" true = .ok cnd ∧
      build_flowgraph_between g opts fuel ctx sce curr_end (indent+4) = .ok r1 ∧
      build_flowgraph_between g opts fuel r1.1 pce curr_end (indent+4) = .ok r2 ∧
      res = (r2.1, .ifElseStmt cnd indent r1.2 (some r2.2))) ∧
    (curr ≠ sce → ∃ cnd r1 r2,
      join_conditions conds "&&" false = .ok cnd ∧
      build_flowgraph_between g opts fuel ctx curr curr_end (indent+4) = .ok r1 ∧
      build_flowgraph_between g opts fuel r1.1 sce curr_end (indent+4) = .ok r2 ∧
      res = (r2.1, .ifElseStmt cnd indent r1.2 (some r2.2))) := by
  simp only [get_full_if_condition, hk] at hres
  rw [hw, M.ok_bind] at hres
  simp only [] at hres
  constructor
  · intro hc
    rw [if_pos (show (conds, prev, curr).2.2 = sce from hc)] at hres
    cases prev with
    | none => exact absurd hres (by simp)
    | some prevN =>
      cases hpk : g.kind prevN with
      | basic s => simp only [hpk] at hres; exact absurd hres (by simp)
      | ret rv rl => simp only [hpk] at hres; exact absurd hres (by simp)
      | conditional pce pfe pil pbc =>
        simp only [hpk] at hres
        obtain ⟨cnd, hj, hres⟩ := M.bind_eq_ok hres
        obtain ⟨r1, h1, hres⟩ := M.bind_eq_ok hres
        obtain ⟨r2, h2, hres⟩ := M.bind_eq_ok hres
        exact ⟨prevN, pce, pfe, pil, pbc, cnd, r1, r2, rfl, hpk, hj, h1, h2,
          (Except.ok.inj hres).symm⟩
  · intro hc
    rw [if_neg (show ¬ (conds, prev, curr).2.2 = sce from hc)] at hres
    obtain ⟨cnd, hj, hres⟩ := M.bind_eq_ok hres
    obtain ⟨r1, h1, hres⟩ := M.bind_eq_ok hres
    obtain ⟨r2, h2, hres⟩ := M.bind_eq_ok hres
    exact ⟨cnd, r1, r2, hj, h1, h2, (Except.ok.inj hres).symm⟩

/-- Witness for C3 (amended) on the `||`-shaped graph `gOr`: the walk of
length 2 ends at node 2, which is the start's taken edge, so the OR shape is
produced with condition `x0 || !x1`. -/
theorem c3_witness :
    ∃ prevN pce pfe pil pbc cnd r1 r2,
      (some 1 : Option Nat) = some prevN ∧
      gOr.kind prevN = .conditional pce pfe pil pbc ∧
      join_conditions [.atom 0, .atom 1] "||" true = .ok cnd ∧
      build_flowgraph_between gOr {} 19 {} 2 4 8 = .ok r1 ∧
      build_flowgraph_between gOr {} 19 r1.1 pce 4 8 = .ok r2 ∧
      (({ goto_nodes := [], emitted_nodes := [3, 2] } : Context),
        (Statement.ifElseStmt (.binop "||" (.atom 0) ((Cond.atom 1).negated)) 4
          (Body.mk false [.labelStmt 2, .contentsStmt 2 8])
          (some (Body.mk false [.labelStmt 3, .contentsStmt 3 8])))) =
        (r2.1, .ifElseStmt cnd 4 r1.2 (some r2.2)) :=
  (c3_amended_compound_shape gOr {} 19 {} 2 0 4 4 2 1 false (.atom 0)
    [.atom 0, .atom 1] (some 1) 2
    (({ goto_nodes := [], emitted_nodes := [3, 2] } : Context),
      (Statement.ifElseStmt (.binop "||" (.atom 0) ((Cond.atom 1).negated)) 4
        (Body.mk false [.labelStmt 2, .contentsStmt 2 8])
        (some (Body.mk false [.labelStmt 3, .contentsStmt 3 8]))))
    rfl rfl rfl).1 rfl

/-- C9 (amended): in the Naive Emitter a Terminal node is never emitted at
its own position in the linear order; a jump to a non-real Terminal renders
that terminal's return statements inline at the jump site; a jump to a real
Terminal falls through when it is the next node in order and otherwise emits
a plain goto. -/
theorem c9_amended_naive_terminals (g : Graph) (opts : Options)
    (nodes : List Nat) (ctx : Context) (pnc : Bool) :
    (∀ i rest n rv rl, g.kind n = .ret rv rl →
      build_naive_loop g opts nodes i (n :: rest) ctx =
        build_naive_loop g opts nodes (i+1) rest ctx) ∧
    (∀ n rv indent, g.kind n = .ret rv false →
      maybe_emit_return g ctx pnc n indent =
        (write_return g ctx pnc n indent false).map some) ∧
    (∀ n rv i, g.kind n = .ret rv true →
      emit_successor g nodes ctx pnc n i =
        (if i + 1 < nodes.length ∧ nodes.getD (i+1) 0 = n then .ok (ctx, [])
         else .ok ((emit_goto g ctx n 4).1, [(emit_goto g ctx n 4).2]))) := by
  refine ⟨fun i rest n rv rl hk => ?_, fun n rv indent hk => ?_,
    fun n rv i hk => ?_⟩
  · simp only [build_naive_loop, hk]
  · simp only [maybe_emit_return, hk, Bool.false_eq_true, if_false]
    cases hw : write_return g ctx pnc n indent false with
    | ok w => rfl
    | error e => rfl
  · simp only [emit_successor, maybe_emit_return, hk]
    rw [if_pos trivial, M.ok_bind]

/-- Witness for C9 (amended): on `gN` the real terminal 2 is skipped at its
own position, a jump to it from node 0 emits a goto; on `gSyn` a jump to the
synthetic terminal 1 renders its return inline. -/
theorem c9_witness :
    build_naive_loop gN {} [0, 1, 2] 2 [2] {} =
      build_naive_loop gN {} [0, 1, 2] 3 [] {} ∧
    maybe_emit_return gSyn {} false 1 4 =
      (write_return gSyn {} false 1 4 false).map some ∧
    emit_successor gN [0, 1, 2] {} false 2 0 =
      (if 0 + 1 < ([0, 1, 2] : List Nat).length ∧ ([0, 1, 2] : List Nat).getD (0+1) 0 = 2
       then .ok ({}, [])
       else .ok ((emit_goto gN {} 2 4).1, [(emit_goto gN {} 2 4).2])) :=
  ⟨(c9_amended_naive_terminals gN {} [0, 1, 2] {} false).1 2 [] 2 (some (.atom 9)) true rfl,
   (c9_amended_naive_terminals gSyn {} [0, 1, 2] {} false).2.1 1 none 4 rfl,
   (c9_amended_naive_terminals gN {} [0, 1, 2] {} false).2.2 2 (some (.atom 9)) 0 rfl⟩

theorem followed_subset_edges (g : Graph) (m u : Nat)
    (h : u ∈ followed g m) : u ∈ edges g m := by
  cases hk : g.kind m with
  | basic s =>
      simp only [followed, edges, hk] at h ⊢
      exact h
  | conditional ce fe il bc =>
      simp only [followed, edges, hk] at h ⊢
      cases il with
      | true => simp only [if_true] at h; simp at h; simp [h]
      | false => simpa using h
  | ret rv rl =>
      simp only [followed, hk] at h
      simp at h

theorem earliest_aux_mem (g : Graph) (xs : List Nat) :
    ∀ x, xs.foldl (fun best y => if g.idx y < g.idx best then y else best) x ∈
      x :: xs := by
  induction xs with
  | nil => intro x; simp [List.foldl]
  | cons a rest ih =>
      intro x
      simp only [List.foldl]
      by_cases h : g.idx a < g.idx x
      · rw [if_pos h]
        rcases (List.mem_cons).1 (ih a) with h2 | h2
        · simp [h2]
        · simp [List.mem_cons, h2]
      · rw [if_neg h]
        rcases (List.mem_cons).1 (ih x) with h2 | h2
        · simp [h2]
        · simp [List.mem_cons, h2]

theorem earliest_aux_le (g : Graph) (xs : List Nat) :
    ∀ x, (g.idx (xs.foldl (fun best y => if g.idx y < g.idx best then y else best) x)
        ≤ g.idx x) ∧
      ∀ y ∈ xs,
        g.idx (xs.foldl (fun best y => if g.idx y < g.idx best then y else best) x)
          ≤ g.idx y := by
  induction xs with
  | nil => intro x; simp [List.foldl]
  | cons a rest ih =>
      intro x
      simp only [List.foldl]
      by_cases h : g.idx a < g.idx x
      · rw [if_pos h]
        refine ⟨le_trans (ih a).1 (le_of_lt h), ?_⟩
        intro y hy
        rcases (List.mem_cons).1 hy with h2 | h2
        · exact h2 ▸ (ih a).1
        · exact (ih a).2 y h2
      · rw [if_neg h]
        refine ⟨(ih x).1, ?_⟩
        intro y hy
        rcases (List.mem_cons).1 hy with h2 | h2
        · exact h2 ▸ le_trans (ih x).1 (le_of_not_lt h)
        · exact (ih x).2 y h2

theorem earliest_mem {g : Graph} {l : List Nat} {p : Nat}
    (h : earliest g l = some p) : p ∈ l := by
  cases l with
  | nil => exact absurd h (by simp [earliest])
  | cons x xs =>
      rw [earliest] at h
      obtain rfl := Option.some.inj h
      exact earliest_aux_mem g xs x

theorem earliest_le {g : Graph} {l : List Nat} {p : Nat}
    (h : earliest g l = some p) : ∀ y ∈ l, g.idx p ≤ g.idx y := by
  cases l with
  | nil => exact absurd h (by simp [earliest])
  | cons x xs =>
      rw [earliest] at h
      obtain rfl := Option.some.inj h
      intro y hy
      rcases (List.mem_cons).1 hy with h2 | h2
      · rw [h2]
        exact (earliest_aux_le g xs x).1
      · exact (earliest_aux_le g xs x).2 y h2

/-- Every node in a successful `ipd_loop` result satisfies any predicate that
holds on the stack, the accumulated candidates, and all followed
successors. -/
theorem ipd_loop_inv (g : Graph) (efuel start endN : Nat) (Q : Nat → Prop)
    (hQf : ∀ m u, u ∈ followed g m → Q u) :
    ∀ fuel stack pds r, (∀ x ∈ stack, Q x) → (∀ x ∈ pds, Q x) →
      ipd_loop g efuel start endN fuel stack pds = .ok r → ∀ x ∈ r, Q x := by
  intro fuel
  induction fuel with
  | zero => intro stack pds r _ _ h; exact absurd h (by simp [ipd_loop])
  | succ fuel ih =>
      intro stack pds r hs hp h
      match stack with
      | [] =>
          rw [ipd_loop] at h
          rw [← Except.ok.inj h]
          exact hp
      | node :: rest =>
          rw [ipd_loop] at h
          by_cases hidx : g.idx node > g.idx endN
          · rw [if_pos hidx] at h
            exact ih rest pds r (fun x hx => hs x (List.mem_cons_of_mem _ hx)) hp h
          · rw [if_neg hidx] at h
            obtain ⟨b, hb, h⟩ := M.bind_eq_ok h
            have hstack2 : ∀ x ∈ followed g node ++ rest, Q x := by
              intro x hx
              rcases List.mem_append.1 hx with h2 | h2
              · exact hQf node x h2
              · exact hs x (List.mem_cons_of_mem _ h2)
            by_cases hcnd : node ≠ start ∧ b = false
            · rw [if_pos hcnd] at h
              refine ih _ _ r hstack2 ?_ h
              intro x hx
              rcases List.mem_append.1 hx with h2 | h2
              · exact hp x h2
              · rw [List.mem_singleton.1 h2]
                exact hs node (List.mem_cons_self _ _)
            · rw [if_neg hcnd] at h
              exact ih _ _ r hstack2 hp h

/-- Every successful `immediate_postdominator` result satisfies any predicate
holding at `start` and closed under followed edges. -/
theorem ipd_result_Q {g : Graph} {fuel start endN p : Nat} (Q : Nat → Prop)
    (hQf : ∀ m u, u ∈ followed g m → Q u) (hQs : Q start)
    (h : immediate_postdominator g fuel start endN = .ok p) : Q p := by
  rw [immediate_postdominator] at h
  obtain ⟨reach, _, h⟩ := M.bind_eq_ok h
  obtain ⟨pds, hl, h⟩ := M.bind_eq_ok h
  have hr := ipd_loop_inv g fuel start _ Q hQf fuel [start] [] pds
    (by intro x hx; rw [List.mem_singleton.1 hx]; exact hQs) (by simp) hl
  cases he : earliest g pds with
  | none => rw [he] at h; exact absurd h (by simp)
  | some q =>
      rw [he] at h
      rw [← Except.ok.inj h]
      exact hr q (earliest_mem he)

/-- The chain walk of `get_full_if_condition` stays in range on a closed
graph. -/
theorem collect_valid {g : Graph} (hcl : Closed g) :
    ∀ count curr prev acc conds prev2 curr2, curr < g.size →
      collect_conditions g count curr prev acc = .ok (conds, prev2, curr2) →
      curr2 < g.size := by
  intro count
  induction count with
  | zero =>
      intro curr prev acc conds prev2 curr2 hlt h
      rw [collect_conditions] at h
      have h2 : curr = curr2 := congrArg (fun t => t.2.2) (Except.ok.inj h)
      rw [← h2]
      exact hlt
  | succ count ih =>
      intro curr prev acc conds prev2 curr2 hlt h
      rw [collect_conditions] at h
      cases hk : g.kind curr with
      | basic s => rw [hk] at h; exact absurd h (by simp)
      | ret rv rl => rw [hk] at h; exact absurd h (by simp)
      | conditional ce fe il bc =>
          rw [hk] at h
          refine ih fe (some curr) (acc ++ [bc]) conds prev2 curr2 ?_ h
          exact hcl curr fe (by rw [edges, hk]; simp)

theorem body_count_prepend (p : Statement → Nat) (l : List Statement) (b : Body) :
    body_count p (Body.prepend l b) = stmts_count p l + body_count p b := by
  cases b with
  | mk pn s => simp [Body.prepend, body_count, Body.pnc, Body.statements, stmts_count_append]

theorem body_count_append (p : Statement → Nat) (b : Body) (l : List Statement) :
    body_count p (Body.append b l) = body_count p b + stmts_count p l := by
  cases b with
  | mk pn s => simp [Body.append, body_count, Body.pnc, Body.statements, stmts_count_append]

/-- `count_non_postdominated_parents` only ever touches the warning flag. -/
theorem cnpp_ctx {g : Graph} {fuel : Nat} {ctx : Context} {child ce : Nat}
    {rr : Context × Nat}
    (h : count_non_postdominated_parents g fuel ctx child ce = .ok rr) :
    rr.1.is_void = ctx.is_void ∧ rr.1.emitted_nodes = ctx.emitted_nodes ∧
      rr.1.goto_nodes = ctx.goto_nodes := by
  rw [count_non_postdominated_parents] at h
  obtain ⟨cnt, hc, h⟩ := M.bind_eq_ok h
  by_cases hw : ¬ (cnt = 0 ∨ cnt = (g.data child).parents.length) ∧ ¬ ctx.has_warned
  · rw [if_pos hw] at h
    rw [← Except.ok.inj h]
    exact ⟨rfl, rfl, rfl⟩
  · rw [if_neg hw] at h
    rw [← Except.ok.inj h]
    exact ⟨rfl, rfl, rfl⟩

/-- `get_number_of_if_conditions` only ever touches the warning flag. -/
theorem gnoic_ctx {g : Graph} {fuel : Nat} {opts : Options} {ctx : Context}
    {node ce : Nat} {rr : Context × Nat}
    (h : get_number_of_if_conditions g fuel opts ctx node ce = .ok rr) :
    rr.1.is_void = ctx.is_void ∧ rr.1.emitted_nodes = ctx.emitted_nodes ∧
      rr.1.goto_nodes = ctx.goto_nodes := by
  rw [get_number_of_if_conditions] at h
  by_cases ha : opts.andor_detection = true
  · rw [if_neg (by simp [ha])] at h
    cases hk : g.kind node with
    | basic s => rw [hk] at h; exact absurd h (by simp)
    | ret rv rl => rw [hk] at h; exact absurd h (by simp)
    | conditional c f il bc =>
        rw [hk] at h
        obtain ⟨r1, h1, h⟩ := M.bind_eq_ok h
        obtain ⟨r2, h2, h⟩ := M.bind_eq_ok h
        have e1 := cnpp_ctx h1
        have e2 := cnpp_ctx h2
        by_cases hz : r1.2 ≠ 0
        · rw [if_pos hz] at h
          rw [← Except.ok.inj h]
          exact ⟨e2.1.trans e1.1, (e2.2.1).trans e1.2.1, (e2.2.2).trans e1.2.2⟩
        · rw [if_neg hz] at h
          rw [← Except.ok.inj h]
          exact ⟨e2.1.trans e1.1, (e2.2.1).trans e1.2.1, (e2.2.2).trans e1.2.2⟩
  · rw [if_pos (by simp [Bool.not_eq_true] at ha; simp [ha])] at h
    rw [← Except.ok.inj h]
    exact ⟨rfl, rfl, rfl⟩

/-- On a closed graph with no in-range `ReturnNode`s, the whole structuring
engine never renders a return statement and never clears the void flag
(`write_return` is unreachable). -/
theorem trio_no_ret (g : Graph) (opts : Options)
    (hcl : Closed g) (hnr : ∀ n, n < g.size → (g.kind n).isRet = false) :
    ∀ fuel,
      (∀ ctx start endN indent r,
        start < g.size ∨ start = endN →
        build_flowgraph_between g opts fuel ctx start endN indent = .ok r →
        r.1.is_void = ctx.is_void ∧ body_count is_return_stmt r.2 = 0) ∧
      (∀ ctx start endN indent r,
        start < g.size →
        build_conditional_subgraph g opts fuel ctx start endN indent = .ok r →
        r.1.is_void = ctx.is_void ∧ stmt_count is_return_stmt r.2 = 0) ∧
      (∀ ctx count start curr_end indent r,
        start < g.size →
        get_full_if_condition g opts fuel ctx count start curr_end indent = .ok r →
        r.1.is_void = ctx.is_void ∧ stmt_count is_return_stmt r.2 = 0) := by
  intro fuel
  induction fuel with
  | zero =>
      refine ⟨fun ctx start endN indent r _ h => ?_,
        fun ctx start endN indent r _ h => ?_,
        fun ctx count start curr_end indent r _ h => ?_⟩
      · exact absurd h (by rw [build_flowgraph_between]; simp)
      · exact absurd h (by rw [build_conditional_subgraph]; simp)
      · exact absurd h (by rw [get_full_if_condition]; simp)
  | succ fuel ih =>
      obtain ⟨ihB, ihC, ihF⟩ := ih
      have hedge : ∀ m u, u ∈ edges g m → u < g.size := hcl
      have hfol : ∀ m u, u ∈ followed g m → u < g.size :=
        fun m u hu => hcl m u (followed_subset_edges g m u hu)
      refine ⟨fun ctx start endN indent r hpre hok => ?_,
        fun ctx start endN indent r hlt hok => ?_,
        fun ctx count start curr_end indent r hlt hok => ?_⟩
      · -- build_flowgraph_between
        rw [build_flowgraph_between] at hok
        by_cases hse : start = endN
        · rw [if_pos hse] at hok
          rw [← Except.ok.inj hok]
          exact ⟨rfl, by simp [body_count, stmts_count]⟩
        · rw [if_neg hse] at hok
          have hlt : start < g.size := hpre.resolve_right hse
          cases hk : g.kind start with
          | ret rv rl =>
              have h2 := hnr start hlt
              rw [hk] at h2
              simp [NodeKind.isRet] at h2
          | basic s =>
              simp only [hk] at hok
              by_cases hm : start ∈ ctx.emitted_nodes
              · rw [if_pos hm] at hok
                rw [← Except.ok.inj hok]
                refine ⟨rfl, ?_⟩
                simp [emit_goto, body_count, stmts_count, stmt_count, is_return_goto]
              · rw [if_neg hm] at hok
                obtain ⟨r1, h1, hok⟩ := M.bind_eq_ok hok
                have hs : s < g.size := hedge start s (by rw [edges, hk]; simp)
                obtain ⟨hv, hc⟩ := ihB _ s endN indent r1 (Or.inl hs) h1
                rw [← Except.ok.inj hok]
                refine ⟨hv, ?_⟩
                rw [body_count_prepend]
                simp [stmts_count, stmt_count, is_return_stmt, hc,
                  add_node_count_ret_zero]
          | conditional ce fe il bc =>
              simp only [hk] at hok
              by_cases hm : start ∈ ctx.emitted_nodes
              · rw [if_pos hm] at hok
                rw [← Except.ok.inj hok]
                refine ⟨rfl, ?_⟩
                simp [emit_goto, body_count, stmts_count, stmt_count, is_return_goto]
              · rw [if_neg hm] at hok
                obtain ⟨ce2, hip, hok⟩ := M.bind_eq_ok hok
                obtain ⟨rc, hbc, hok⟩ := M.bind_eq_ok hok
                obtain ⟨r2, hb2, hok⟩ := M.bind_eq_ok hok
                have hce2 : ce2 < g.size :=
                  ipd_result_Q (fun x => x < g.size) hfol hlt hip
                obtain ⟨hv1, hc1⟩ := ihC _ start ce2 indent rc hlt hbc
                obtain ⟨hv2, hc2⟩ := ihB _ ce2 endN indent r2 (Or.inl hce2) hb2
                rw [← Except.ok.inj hok]
                refine ⟨hv2.trans hv1, ?_⟩
                rw [body_count_prepend, stmts_count_append]
                simp [stmts_count, stmt_count, is_return_stmt, hc1, hc2,
                  add_node_count_ret_zero]
      · -- build_conditional_subgraph
        rw [build_conditional_subgraph] at hok
        cases hk : g.kind start with
        | basic s => simp only [hk] at hok; exact absurd hok (by simp)
        | ret rv rl => simp only [hk] at hok; exact absurd hok (by simp)
        | conditional ce fe il bc =>
          simp only [hk] at hok
          have hce : ce < g.size := hedge start ce (by rw [edges, hk]; simp)
          have hfe : fe < g.size := hedge start fe (by rw [edges, hk]; simp)
          by_cases h1 : ce = endN
          · rw [if_pos h1] at hok
            by_cases h2 : fe = endN
            · rw [if_pos h2] at hok; exact absurd hok (by simp)
            · rw [if_neg h2] at hok
              obtain ⟨r1, hb, hok⟩ := M.bind_eq_ok hok
              obtain ⟨hv, hc⟩ := ihB _ fe endN (indent+4) r1 (Or.inl hfe) hb
              rw [← Except.ok.inj hok]
              exact ⟨hv, by simp [stmt_count, opt_body_count, is_return_stmt, hc]⟩
          · rw [if_neg h1] at hok
            by_cases h2 : fe = endN
            · rw [if_pos h2] at hok
              cases il with
              | false =>
                  rw [if_pos (by simp)] at hok
                  obtain ⟨r1, hb, hok⟩ := M.bind_eq_ok hok
                  obtain ⟨hv, hc⟩ := ihB _ ce endN (indent+4) r1 (Or.inl hce) hb
                  rw [← Except.ok.inj hok]
                  exact ⟨hv, by simp [stmt_count, opt_body_count, is_return_stmt, hc]⟩
              | true =>
                  rw [if_neg (by simp)] at hok
                  rw [← Except.ok.inj hok]
                  refine ⟨rfl, ?_⟩
                  simp [emit_goto, stmt_count, body_count, stmts_count,
                    opt_body_count, is_return_stmt, is_return_goto]
            · rw [if_neg h2] at hok
              obtain ⟨rc, hg, hok⟩ := M.bind_eq_ok hok
              have hgc := gnoic_ctx hg
              by_cases hlt2 : rc.2 < 2
              · rw [if_pos hlt2] at hok
                obtain ⟨r1, hb1, hok⟩ := M.bind_eq_ok hok
                obtain ⟨r2, hb2, hok⟩ := M.bind_eq_ok hok
                obtain ⟨hv1, hc1⟩ := ihB _ fe endN (indent+4) r1 (Or.inl hfe) hb1
                obtain ⟨hv2, hc2⟩ := ihB _ ce endN (indent+4) r2 (Or.inl hce) hb2
                rw [← Except.ok.inj hok]
                refine ⟨(hv2.trans hv1).trans hgc.1, ?_⟩
                simp [stmt_count, opt_body_count, is_return_stmt, hc1, hc2]
              · rw [if_neg hlt2] at hok
                obtain ⟨hv, hc⟩ := ihF _ rc.2 start endN indent r hlt hok
                exact ⟨hv.trans hgc.1, hc⟩
      · -- get_full_if_condition
        rw [get_full_if_condition] at hok
        cases hk : g.kind start with
        | basic s => simp only [hk] at hok; exact absurd hok (by simp)
        | ret rv rl => simp only [hk] at hok; exact absurd hok (by simp)
        | conditional sce sfe sil sbc =>
          simp only [hk] at hok
          obtain ⟨w, hw, hok⟩ := M.bind_eq_ok hok
          have hsce : sce < g.size := hedge start sce (by rw [edges, hk]; simp)
          by_cases hc : w.2.2 = sce
          · rw [if_pos hc] at hok
            cases hp : w.2.1 with
            | none => rw [hp] at hok; exact absurd hok (by simp)
            | some prevN =>
              rw [hp] at hok
              cases hpk : g.kind prevN with
              | basic s => simp only [hpk] at hok; exact absurd hok (by simp)
              | ret rv rl => simp only [hpk] at hok; exact absurd hok (by simp)
              | conditional pce pfe pil pbc =>
                simp only [hpk] at hok
                have hpce : pce < g.size :=
                  hedge prevN pce (by rw [edges, hpk]; simp)
                obtain ⟨cnd, hj, hok⟩ := M.bind_eq_ok hok
                obtain ⟨r1, hb1, hok⟩ := M.bind_eq_ok hok
                obtain ⟨r2, hb2, hok⟩ := M.bind_eq_ok hok
                obtain ⟨hv1, hc1⟩ := ihB _ sce curr_end (indent+4) r1 (Or.inl hsce) hb1
                obtain ⟨hv2, hc2⟩ := ihB _ pce curr_end (indent+4) r2 (Or.inl hpce) hb2
                rw [← Except.ok.inj hok]
                refine ⟨hv2.trans hv1, ?_⟩
                simp [stmt_count, opt_body_count, is_return_stmt, hc1, hc2]
          · rw [if_neg hc] at hok
            have hcurr : w.2.2 < g.size :=
              collect_valid hcl count start none [] w.1 w.2.1 w.2.2 hlt hw
            obtain ⟨cnd, hj, hok⟩ := M.bind_eq_ok hok
            obtain ⟨r1, hb1, hok⟩ := M.bind_eq_ok hok
            obtain ⟨r2, hb2, hok⟩ := M.bind_eq_ok hok
            obtain ⟨hv1, hc1⟩ := ihB _ w.2.2 curr_end (indent+4) r1 (Or.inl hcurr) hb1
            obtain ⟨hv2, hc2⟩ := ihB _ sce curr_end (indent+4) r2 (Or.inl hsce) hb2
            rw [← Except.ok.inj hok]
            refine ⟨hv2.trans hv1, ?_⟩
            simp [stmt_count, opt_body_count, is_return_stmt, hc1, hc2]

theorem closed_of_closedB {g : Graph} (h : closedB g = true) : Closed g := by
  intro n u hu
  by_cases hn : n < g.size
  · rw [closedB, List.all_eq_true] at h
    have h2 := h n (List.mem_range.2 hn)
    rw [List.all_eq_true] at h2
    simpa using h2 u hu
  · have hd : g.data n = { blockIdx := -1, kind := .ret none false, parents := [] } :=
      List.getD_eq_default _ _ (Nat.le_of_not_lt hn)
    rw [edges, Graph.kind, hd] at hu
    simp at hu

theorem fwd_of_fwdB {g : Graph} (h : fwdB g = true) : Fwd g := by
  intro n u hu
  by_cases hn : n < g.size
  · rw [fwdB, List.all_eq_true] at h
    have h2 := h n (List.mem_range.2 hn)
    rw [List.all_eq_true] at h2
    have := h2 u hu
    simpa using this
  · have hd : g.data n = { blockIdx := -1, kind := .ret none false, parents := [] } :=
      List.getD_eq_default _ _ (Nat.le_of_not_lt hn)
    rw [followed, Graph.kind, hd] at hu
    simp at hu

theorem noRet_of_noRetB {g : Graph} (h : noRetB g = true) :
    ∀ n, n < g.size → (g.kind n).isRet = false := by
  intro n hn
  rw [noRetB, List.all_eq_true] at h
  have h2 := h n (List.mem_range.2 hn)
  simpa using h2

theorem mer_not_ret {g : Graph} {ctx : Context} {pnc : Bool} {u indent : Nat}
    (h : (g.kind u).isRet = false) :
    maybe_emit_return g ctx pnc u indent = .ok none := by
  rw [maybe_emit_return]
  cases hk : g.kind u with
  | basic s => rfl
  | conditional ce fe il bc => rfl
  | ret rv rl => rw [hk] at h; simp [NodeKind.isRet] at h

theorem emit_successor_no_ret {g : Graph} {nodes : List Nat} {ctx : Context}
    {pnc : Bool} {u i : Nat} (h : (g.kind u).isRet = false) :
    ∃ ctx2 l, emit_successor g nodes ctx pnc u i = .ok (ctx2, l) ∧
      ctx2.is_void = ctx.is_void ∧ stmts_count is_return_stmt l = 0 := by
  rw [emit_successor, mer_not_ret h, M.ok_bind]
  by_cases hn : i + 1 < nodes.length ∧ nodes.getD (i+1) 0 = u
  · rw [if_pos hn]
    exact ⟨ctx, [], rfl, rfl, rfl⟩
  · rw [if_neg hn]
    refine ⟨_, _, rfl, rfl, ?_⟩
    simp [emit_goto, stmts_count, stmt_count, is_return_goto]

/-- The Naive Emitter never renders a return statement and never clears the
void flag on a closed graph with no in-range `ReturnNode`s. -/
theorem naive_no_ret (g : Graph) (opts : Options) (nodes : List Nat)
    (hcl : Closed g) (hnr : ∀ n, n < g.size → (g.kind n).isRet = false) :
    ∀ l i ctx r, (∀ x ∈ l, x < g.size) →
      build_naive_loop g opts nodes i l ctx = .ok r →
      r.1.is_void = ctx.is_void ∧ stmts_count is_return_stmt r.2 = 0 := by
  intro l
  induction l with
  | nil =>
      intro i ctx r _ h
      rw [build_naive_loop] at h
      rw [← Except.ok.inj h]
      exact ⟨rfl, rfl⟩
  | cons n rest ih =>
      intro i ctx r hmem h
      rw [build_naive_loop] at h
      have hn : n < g.size := hmem n (List.mem_cons_self _ _)
      have hrest : ∀ x ∈ rest, x < g.size :=
        fun x hx => hmem x (List.mem_cons_of_mem _ hx)
      cases hk : g.kind n with
      | ret rv rl =>
          have h2 := hnr n hn
          rw [hk] at h2
          simp [NodeKind.isRet] at h2
      | basic s =>
          simp only [hk] at h
          have hs : s < g.size := hcl n s (by rw [edges, hk]; simp)
          obtain ⟨ctx2, l2, hes, hv2, hc2⟩ :=
            @emit_successor_no_ret g nodes ctx opts.debug s i (hnr s hs)
          rw [hes] at h
          rw [M.ok_bind] at h
          obtain ⟨r2, h2, h⟩ := M.bind_eq_ok h
          obtain ⟨hv3, hc3⟩ := ih (i+1) ctx2 r2 hrest h2
          rw [← Except.ok.inj h]
          refine ⟨hv3.trans hv2, ?_⟩
          simp [stmts_count_append, stmts_count, stmt_count, is_return_stmt,
            add_node_count_ret_zero, hc2, hc3]
      | conditional ce fe il bc =>
          simp only [hk] at h
          have hce : ce < g.size := hcl n ce (by rw [edges, hk]; simp)
          have hfe : fe < g.size := hcl n fe (by rw [edges, hk]; simp)
          rw [mer_not_ret (hnr ce hce), M.ok_bind] at h
          obtain ⟨re, hes, h⟩ := M.bind_eq_ok h
          obtain ⟨ctx2, l2, hes2, hv2, hc2⟩ :=
            @emit_successor_no_ret g nodes (emit_goto g ctx ce 8).1 opts.debug
              fe i (hnr fe hfe)
          rw [show re = ((emit_goto g ctx ce 8).1, [(emit_goto g ctx ce 8).2])
            from (Except.ok.inj hes).symm] at h
          rw [hes2, M.ok_bind] at h
          obtain ⟨r2, h2, h⟩ := M.bind_eq_ok h
          obtain ⟨hv3, hc3⟩ := ih (i+1) ctx2 r2 hrest h2
          rw [← Except.ok.inj h]
          refine ⟨(hv3.trans hv2).trans rfl, ?_⟩
          simp [stmts_count_append, stmts_count, stmt_count, is_return_stmt,
            add_node_count_ret_zero, hc2, hc3, emit_goto, body_count,
            opt_body_count, is_return_goto]

/-- C8: a terminal carrying a return value renders `return <value>;` and
marks the function non-void; a bare `return;` is rendered for a valueless
terminal exactly when it is not the trailing terminal; and a function whose
only terminal is the synthetic sentinel (no in-range `ReturnNode` and no
function return node) is rendered with `void ` return type, a still-void
context, and no return statement anywhere in its body. -/
theorem c8_terminal_rendering (g : Graph) (opts : Options) :
    (∀ ctx pnc node indent last rv real, g.kind node = .ret rv real →
      (∀ v, rv = some v → ∃ stmts,
        write_return g ctx pnc node indent last =
          .ok ({ ctx with is_void := false }, stmts) ∧
        .simpleStmt indent ("return " ++ stringify_expr v ++ ";") ∈ stmts) ∧
      (rv = none → last = false → ∃ stmts,
        write_return g ctx pnc node indent last = .ok (ctx, stmts) ∧
        .simpleStmt indent "return;" ∈ stmts) ∧
      (rv = none → last = true → ∃ stmts,
        write_return g ctx pnc node indent last = .ok (ctx, stmts) ∧
        stmts_count is_return_stmt stmts = 0)) ∧
    (g.returnNode = none → Closed g →
      (∀ n, n < g.size → (g.kind n).isRet = false) →
      ∀ fuel ctx2 body rt, write_function g opts fuel = .ok (ctx2, body, rt) →
        ctx2.is_void = true ∧ rt = "void " ∧
        body_count is_return_stmt body = 0) := by
  constructor
  · intro ctx pnc node indent last rv real hk
    refine ⟨fun v hv => ?_, fun hv hl => ?_, fun hv hl => ?_⟩
    · subst hv
      refine ⟨((if last then [Statement.labelStmt node] else []) ++
          add_node_stmts g pnc node indent real) ++
          [.simpleStmt indent ("return " ++ stringify_expr v ++ ";")], ?_, ?_⟩
      · simp only [write_return, hk]
      · exact List.mem_append_right _ (List.mem_singleton.2 rfl)
    · subst hv; subst hl
      refine ⟨((if false then [Statement.labelStmt node] else []) ++
          add_node_stmts g pnc node indent real) ++
          [.simpleStmt indent "return;"], ?_, ?_⟩
      · simp only [write_return, hk]
        rw [if_pos (by simp)]
      · exact List.mem_append_right _ (List.mem_singleton.2 rfl)
    · subst hv; subst hl
      refine ⟨(if true then [Statement.labelStmt node] else []) ++
          add_node_stmts g pnc node indent real, ?_, ?_⟩
      · simp only [write_return, hk]
        rw [if_neg (by simp)]
      · rw [stmts_count_append]
        simp [stmts_count, stmt_count, is_return_stmt, add_node_count_ret_zero]
  · intro hrn hcl hnr fuel ctx2 body rt hok
    have hT := trio_no_ret g opts hcl hnr fuel
    rw [write_function] at hok
    simp only [hrn] at hok
    have hfin : ∀ r : Context × Body, r.1.is_void = true →
        body_count is_return_stmt r.2 = 0 →
        (do
          let r2 ← if (g.size, false).2 = true then do
              let w ← write_return g r.1 opts.debug (g.size, false).1 4 true
              (.ok (w.1, Body.append r.2 w.2) : M (Context × Body))
            else .ok r
          (.ok (r2.1, r2.2, if r2.1.is_void then "void " else "s32 ") :
            M (Context × Body × String))) = .ok (ctx2, body, rt) →
        ctx2.is_void = true ∧ rt = "void " ∧
          body_count is_return_stmt body = 0 := by
      intro r hv hc hok
      rw [if_neg (by simp)] at hok
      rw [M.ok_bind] at hok
      have h3 := Except.ok.inj hok
      have hc2 : ctx2 = r.1 := (congrArg (fun t => t.1) h3).symm
      have hb2 : body = r.2 := (congrArg (fun t => t.2.1) h3).symm
      have hr2 : rt = if r.1.is_void then "void " else "s32 " :=
        (congrArg (fun t => t.2.2) h3).symm
      rw [hc2, hb2, hr2, hv]
      exact ⟨rfl, rfl, hc⟩
    cases hifs : opts.ifs with
    | true =>
        rw [if_pos hifs] at hok
        obtain ⟨r, hb, hok⟩ := M.bind_eq_ok hok
        obtain ⟨hv, hc⟩ := hT.1 {} 0 g.size 4 r
          (by
            rcases Nat.eq_zero_or_pos g.size with h0 | h0
            · exact Or.inr h0.symm
            · exact Or.inl h0) hb
        exact hfin r hv hc hok
    | false =>
        rw [if_neg (by simp [hifs])] at hok
        obtain ⟨r, hb, hok⟩ := M.bind_eq_ok hok
        rw [build_naive] at hb
        obtain ⟨rl, hl, hb⟩ := M.bind_eq_ok hb
        obtain ⟨hv, hc⟩ := naive_no_ret g opts (List.range g.size) hcl hnr
          (List.range g.size) 0 {} rl (fun x hx => List.mem_range.1 hx) hl
        have hr : r = (rl.1, Body.mk opts.debug rl.2) := (Except.ok.inj hb).symm
        refine hfin r ?_ ?_ hok
        · rw [hr]; exact hv
        · rw [hr]; simpa [body_count] using hc

/-- Witness for C8: the valued real return of `gDia` renders `return x9;` and
clears the void flag; the valueless real return of `gLoop` renders a bare
`return;` only when not trailing; and the return-free cyclic function
`gVoid` renders as `void ` with no return statement in its body. -/
theorem c8_witness :
    (∃ stmts, write_return gDia {} false 3 4 false =
        .ok ({ ({} : Context) with is_void := false }, stmts) ∧
      .simpleStmt 4 ("return " ++ stringify_expr (.atom 9) ++ ";") ∈ stmts) ∧
    (∃ stmts, write_return gLoop {} false 2 4 false = .ok ({}, stmts) ∧
      .simpleStmt 4 "return;" ∈ stmts) ∧
    (∃ stmts, write_return gLoop {} false 2 4 true = .ok ({}, stmts) ∧
      stmts_count is_return_stmt stmts = 0) ∧
    ((({ goto_nodes := [0], emitted_nodes := [1, 0] } : Context)).is_void = true ∧
      "void " = "void " ∧
      body_count is_return_stmt
        (Body.mk false [.labelStmt 0, .contentsStmt 0 4, .labelStmt 1,
          .contentsStmt 1 4, .simpleStmt 4 "goto block_0;"]) = 0) :=
  ⟨((c8_terminal_rendering gDia {}).1 {} false 3 4 false (some (.atom 9)) true
      rfl).1 (.atom 9) rfl,
   ((c8_terminal_rendering gLoop {}).1 {} false 2 4 false none true
      rfl).2.1 rfl rfl,
   ((c8_terminal_rendering gLoop {}).1 {} false 2 4 true none true
      rfl).2.2 rfl rfl,
   (c8_terminal_rendering gVoid {}).2 rfl (closed_of_closedB (by decide))
     (noRet_of_noRetB (by decide)) 10
     ({ goto_nodes := [0], emitted_nodes := [1, 0] } : Context)
     (Body.mk false [.labelStmt 0, .contentsStmt 0 4, .labelStmt 1,
       .contentsStmt 1 4, .simpleStmt 4 "goto block_0;"])
     "void " rfl⟩

theorem emitted_flag_le_one (ctx : Context) (n : Nat) : emitted_flag ctx n ≤ 1 := by
  rw [emitted_flag]
  split <;> omega

/-- `write_return` never touches the emitted set and only emits contents of
the return node itself. -/
theorem write_return_emitted {g : Graph} {ctx : Context} {pnc : Bool}
    {node indent : Nat} {last : Bool} {r : Context × List Statement}
    (h : write_return g ctx pnc node indent last = .ok r) :
    r.1.emitted_nodes = ctx.emitted_nodes ∧
    ∀ n, (g.kind n).isRet = false →
      stmts_count (is_contents_of n) r.2 = 0 := by
  rw [write_return] at h
  cases hk : g.kind node with
  | basic s => rw [hk] at h; exact absurd h (by simp)
  | conditional ce fe il bc => rw [hk] at h; exact absurd h (by simp)
  | ret rv real =>
      have hne : ∀ n, (g.kind n).isRet = false → ¬ node = n := by
        intro n hn he
        rw [← he, hk] at hn
        simp [NodeKind.isRet] at hn
      have hpre : ∀ n, (g.kind n).isRet = false →
          stmts_count (is_contents_of n)
            ((if last then [Statement.labelStmt node] else []) ++
              add_node_stmts g pnc node indent real) = 0 := by
        intro n hn
        rw [stmts_count_append]
        have h1 : stmts_count (is_contents_of n)
            (if last then [Statement.labelStmt node] else []) = 0 := by
          split <;> simp [stmts_count, stmt_count, is_contents_of]
        rw [h1]
        rw [add_node_stmts]
        rw [stmts_count_append]
        have h2 : stmts_count (is_contents_of n)
            (if pnc && ((g.data node).any_to_write || real) then
              [Statement.simpleStmt indent ("// Node " ++ toString node)]
             else []) = 0 := by
          split <;> simp [stmts_count, stmt_count, is_contents_of]
        rw [h2]
        simp [stmts_count, stmt_count, is_contents_of, hne n hn]
      cases rv with
      | some v =>
          simp only [hk] at h
          rw [← Except.ok.inj h]
          refine ⟨rfl, fun n hn => ?_⟩
          rw [stmts_count_append, hpre n hn]
          simp [stmts_count, stmt_count, is_contents_of]
      | none =>
          simp only [hk] at h
          by_cases hl : last = true
          · rw [if_neg (by simp [hl])] at h
            rw [← Except.ok.inj h]
            exact ⟨rfl, hpre⟩
          · rw [if_pos (by simp [Bool.not_eq_true] at hl; simp [hl])] at h
            rw [← Except.ok.inj h]
            refine ⟨rfl, fun n hn => ?_⟩
            rw [stmts_count_append, hpre n hn]
            simp [stmts_count, stmt_count, is_contents_of]

theorem emitted_flag_eq_of_emitted_eq {ctx1 ctx2 : Context}
    (h : ctx1.emitted_nodes = ctx2.emitted_nodes) (n : Nat) :
    emitted_flag ctx1 n = emitted_flag ctx2 n := by
  simp [emitted_flag, h]

theorem pre_contents_count (g : Graph) (pnc : Bool) (start indent : Nat)
    (ce : Bool) (n : Nat) :
    stmts_count (is_contents_of n)
      (Statement.labelStmt start :: add_node_stmts g pnc start indent ce) =
      if start = n then 1 else 0 := by
  rw [stmts_count, add_node_stmts, stmts_count_append]
  have h2 : stmts_count (is_contents_of n)
      (if pnc && ((g.data start).any_to_write || ce) then
        [Statement.simpleStmt indent ("// Node " ++ toString start)]
       else []) = 0 := by
    split <;> simp [stmts_count, stmt_count, is_contents_of]
  rw [h2]
  simp [stmts_count, stmt_count, is_contents_of]

/-- The structuring engine grows the emitted set monotonically and, for every
non-return node, emits that node's contents at most as often as the node
newly enters the emitted set — the at-most-once invariant. -/
theorem trio_once (g : Graph) (opts : Options) :
    ∀ fuel,
      (∀ ctx start endN indent r,
        build_flowgraph_between g opts fuel ctx start endN indent = .ok r →
        ctx.emitted_nodes ⊆ r.1.emitted_nodes ∧
        ∀ n, (g.kind n).isRet = false →
          body_count (is_contents_of n) r.2 + emitted_flag ctx n ≤
            emitted_flag r.1 n) ∧
      (∀ ctx start endN indent r,
        build_conditional_subgraph g opts fuel ctx start endN indent = .ok r →
        ctx.emitted_nodes ⊆ r.1.emitted_nodes ∧
        ∀ n, (g.kind n).isRet = false →
          stmt_count (is_contents_of n) r.2 + emitted_flag ctx n ≤
            emitted_flag r.1 n) ∧
      (∀ ctx count start curr_end indent r,
        get_full_if_condition g opts fuel ctx count start curr_end indent = .ok r →
        ctx.emitted_nodes ⊆ r.1.emitted_nodes ∧
        ∀ n, (g.kind n).isRet = false →
          stmt_count (is_contents_of n) r.2 + emitted_flag ctx n ≤
            emitted_flag r.1 n) := by
  intro fuel
  induction fuel with
  | zero =>
      refine ⟨fun ctx start endN indent r h => ?_,
        fun ctx start endN indent r h => ?_,
        fun ctx count start curr_end indent r h => ?_⟩
      · exact absurd h (by rw [build_flowgraph_between]; simp)
      · exact absurd h (by rw [build_conditional_subgraph]; simp)
      · exact absurd h (by rw [get_full_if_condition]; simp)
  | succ fuel ih =>
      obtain ⟨ihB, ihC, ihF⟩ := ih
      refine ⟨fun ctx start endN indent r hok => ?_,
        fun ctx start endN indent r hok => ?_,
        fun ctx count start curr_end indent r hok => ?_⟩
      · -- build_flowgraph_between
        rw [build_flowgraph_between] at hok
        by_cases hse : start = endN
        · rw [if_pos hse] at hok
          rw [← Except.ok.inj hok]
          exact ⟨fun x hx => hx, fun n _ => by
            simp [body_count, stmts_count, emitted_flag]⟩
        · rw [if_neg hse] at hok
          cases hk : g.kind start with
          | ret rv rl =>
              simp only [hk] at hok
              obtain ⟨w, hw, hok⟩ := M.bind_eq_ok hok
              have hwe := write_return_emitted hw
              rw [← Except.ok.inj hok]
              refine ⟨fun x hx => hwe.1 ▸ hx, fun n hn => ?_⟩
              have : body_count (is_contents_of n) (Body.mk opts.debug w.2) =
                  stmts_count (is_contents_of n) w.2 := rfl
              rw [this, hwe.2 n hn, emitted_flag_eq_of_emitted_eq hwe.1 n]
              omega
          | basic s =>
              simp only [hk] at hok
              by_cases hm : start ∈ ctx.emitted_nodes
              · rw [if_pos hm] at hok
                rw [← Except.ok.inj hok]
                refine ⟨fun x hx => hx, fun n hn => ?_⟩
                simp [emit_goto, body_count, stmts_count, stmt_count,
                  is_contents_of, emitted_flag]
              · rw [if_neg hm] at hok
                obtain ⟨r1, h1, hok⟩ := M.bind_eq_ok hok
                obtain ⟨hsub1, hcnt1⟩ := ihB _ s endN indent r1 h1
                rw [← Except.ok.inj hok]
                dsimp only
                refine ⟨fun x hx => hsub1 (List.mem_cons_of_mem _ hx),
                  fun n hn => ?_⟩
                rw [body_count_prepend, pre_contents_count]
                have hIH := hcnt1 n hn
                have hle := emitted_flag_le_one r1.1 n
                by_cases hns : start = n
                · subst hns
                  have hf0 : emitted_flag ctx start = 0 := if_neg hm
                  have hf1 : emitted_flag
                      { ctx with emitted_nodes := start :: ctx.emitted_nodes }
                      start = 1 := if_pos (List.mem_cons_self _ _)
                  rw [if_pos rfl, hf0]
                  rw [hf1] at hIH
                  omega
                · have hns2 : ¬ n = start := fun h => hns h.symm
                  have hf : emitted_flag
                      { ctx with emitted_nodes := start :: ctx.emitted_nodes } n =
                      emitted_flag ctx n := by
                    simp [emitted_flag, List.mem_cons, hns2]
                  rw [if_neg hns]
                  rw [hf] at hIH
                  omega
          | conditional ce fe il bc =>
              simp only [hk] at hok
              by_cases hm : start ∈ ctx.emitted_nodes
              · rw [if_pos hm] at hok
                rw [← Except.ok.inj hok]
                refine ⟨fun x hx => hx, fun n hn => ?_⟩
                simp [emit_goto, body_count, stmts_count, stmt_count,
                  is_contents_of, emitted_flag]
              · rw [if_neg hm] at hok
                obtain ⟨ce2, hip, hok⟩ := M.bind_eq_ok hok
                obtain ⟨rc, hbc, hok⟩ := M.bind_eq_ok hok
                obtain ⟨r2, hb2, hok⟩ := M.bind_eq_ok hok
                obtain ⟨hsubC, hcntC⟩ := ihC _ start ce2 indent rc hbc
                obtain ⟨hsubB, hcntB⟩ := ihB _ ce2 endN indent r2 hb2
                rw [← Except.ok.inj hok]
                dsimp only
                refine ⟨fun x hx =>
                  hsubB (hsubC (List.mem_cons_of_mem _ hx)), fun n hn => ?_⟩
                rw [body_count_prepend, stmts_count_append, pre_contents_count]
                have h1 : stmts_count (is_contents_of n) [rc.2] =
                    stmt_count (is_contents_of n) rc.2 := by
                  simp [stmts_count]
                rw [h1]
                have hIC := hcntC n hn
                have hIB := hcntB n hn
                have hle := emitted_flag_le_one r2.1 n
                by_cases hns : start = n
                · subst hns
                  have hf0 : emitted_flag ctx start = 0 := if_neg hm
                  have hf1 : emitted_flag
                      { ctx with emitted_nodes := start :: ctx.emitted_nodes }
                      start = 1 := if_pos (List.mem_cons_self _ _)
                  rw [if_pos rfl, hf0]
                  rw [hf1] at hIC
                  omega
                · have hns2 : ¬ n = start := fun h => hns h.symm
                  have hf : emitted_flag
                      { ctx with emitted_nodes := start :: ctx.emitted_nodes } n =
                      emitted_flag ctx n := by
                    simp [emitted_flag, List.mem_cons, hns2]
                  rw [if_neg hns]
                  rw [hf] at hIC
                  omega
      · -- build_conditional_subgraph
        rw [build_conditional_subgraph] at hok
        cases hk : g.kind start with
        | basic s => simp only [hk] at hok; exact absurd hok (by simp)
        | ret rv rl => simp only [hk] at hok; exact absurd hok (by simp)
        | conditional ce fe il bc =>
          simp only [hk] at hok
          by_cases h1 : ce = endN
          · rw [if_pos h1] at hok
            by_cases h2 : fe = endN
            · rw [if_pos h2] at hok; exact absurd hok (by simp)
            · rw [if_neg h2] at hok
              obtain ⟨r1, hb, hok⟩ := M.bind_eq_ok hok
              obtain ⟨hsub, hcnt⟩ := ihB _ fe endN (indent+4) r1 hb
              rw [← Except.ok.inj hok]
              refine ⟨hsub, fun n hn => ?_⟩
              have := hcnt n hn
              simp only [stmt_count, is_contents_of, opt_body_count]
              omega
          · rw [if_neg h1] at hok
            by_cases h2 : fe = endN
            · rw [if_pos h2] at hok
              cases il with
              | false =>
                  rw [if_pos (by simp)] at hok
                  obtain ⟨r1, hb, hok⟩ := M.bind_eq_ok hok
                  obtain ⟨hsub, hcnt⟩ := ihB _ ce endN (indent+4) r1 hb
                  rw [← Except.ok.inj hok]
                  refine ⟨hsub, fun n hn => ?_⟩
                  have := hcnt n hn
                  simp only [stmt_count, is_contents_of, opt_body_count]
                  omega
              | true =>
                  rw [if_neg (by simp)] at hok
                  rw [← Except.ok.inj hok]
                  refine ⟨fun x hx => hx, fun n hn => ?_⟩
                  simp [emit_goto, stmt_count, body_count, stmts_count,
                    is_contents_of, opt_body_count, emitted_flag]
            · rw [if_neg h2] at hok
              obtain ⟨rc, hg, hok⟩ := M.bind_eq_ok hok
              have hgc := gnoic_ctx hg
              by_cases hlt2 : rc.2 < 2
              · rw [if_pos hlt2] at hok
                obtain ⟨r1, hb1, hok⟩ := M.bind_eq_ok hok
                obtain ⟨r2, hb2, hok⟩ := M.bind_eq_ok hok
                obtain ⟨hsub1, hcnt1⟩ := ihB _ fe endN (indent+4) r1 hb1
                obtain ⟨hsub2, hcnt2⟩ := ihB _ ce endN (indent+4) r2 hb2
                rw [← Except.ok.inj hok]
                refine ⟨fun x hx => hsub2 (hsub1 (hgc.2.1 ▸ hx)), fun n hn => ?_⟩
                have hI1 := hcnt1 n hn
                have hI2 := hcnt2 n hn
                rw [emitted_flag_eq_of_emitted_eq hgc.2.1 n] at hI1
                simp only [stmt_count, is_contents_of, opt_body_count]
                omega
              · rw [if_neg hlt2] at hok
                obtain ⟨hsub, hcnt⟩ := ihF _ rc.2 start endN indent r hok
                refine ⟨fun x hx => hsub (hgc.2.1 ▸ hx), fun n hn => ?_⟩
                have := hcnt n hn
                rw [emitted_flag_eq_of_emitted_eq hgc.2.1 n] at this
                omega
      · -- get_full_if_condition
        rw [get_full_if_condition] at hok
        cases hk : g.kind start with
        | basic s => simp only [hk] at hok; exact absurd hok (by simp)
        | ret rv rl => simp only [hk] at hok; exact absurd hok (by simp)
        | conditional sce sfe sil sbc =>
          simp only [hk] at hok
          obtain ⟨w, hw, hok⟩ := M.bind_eq_ok hok
          by_cases hc : w.2.2 = sce
          · rw [if_pos hc] at hok
            cases hp : w.2.1 with
            | none => rw [hp] at hok; exact absurd hok (by simp)
            | some prevN =>
              rw [hp] at hok
              cases hpk : g.kind prevN with
              | basic s => simp only [hpk] at hok; exact absurd hok (by simp)
              | ret rv rl => simp only [hpk] at hok; exact absurd hok (by simp)
              | conditional pce pfe pil pbc =>
                simp only [hpk] at hok
                obtain ⟨cnd, hj, hok⟩ := M.bind_eq_ok hok
                obtain ⟨r1, hb1, hok⟩ := M.bind_eq_ok hok
                obtain ⟨r2, hb2, hok⟩ := M.bind_eq_ok hok
                obtain ⟨hsub1, hcnt1⟩ := ihB _ sce curr_end (indent+4) r1 hb1
                obtain ⟨hsub2, hcnt2⟩ := ihB _ pce curr_end (indent+4) r2 hb2
                rw [← Except.ok.inj hok]
                refine ⟨fun x hx => hsub2 (hsub1 hx), fun n hn => ?_⟩
                have hI1 := hcnt1 n hn
                have hI2 := hcnt2 n hn
                simp only [stmt_count, is_contents_of, opt_body_count]
                omega
          · rw [if_neg hc] at hok
            obtain ⟨cnd, hj, hok⟩ := M.bind_eq_ok hok
            obtain ⟨r1, hb1, hok⟩ := M.bind_eq_ok hok
            obtain ⟨r2, hb2, hok⟩ := M.bind_eq_ok hok
            obtain ⟨hsub1, hcnt1⟩ := ihB _ w.2.2 curr_end (indent+4) r1 hb1
            obtain ⟨hsub2, hcnt2⟩ := ihB _ sce curr_end (indent+4) r2 hb2
            rw [← Except.ok.inj hok]
            refine ⟨fun x hx => hsub2 (hsub1 hx), fun n hn => ?_⟩
            have hI1 := hcnt1 n hn
            have hI2 := hcnt2 n hn
            simp only [stmt_count, is_contents_of, opt_body_count]
            omega

theorem emit_successor_contents {g : Graph} {nodes : List Nat} {ctx : Context}
    {pnc : Bool} {u i : Nat} {res : Context × List Statement}
    (h : emit_successor g nodes ctx pnc u i = .ok res) :
    res.1.emitted_nodes = ctx.emitted_nodes ∧
    ∀ n, (g.kind n).isRet = false →
      stmts_count (is_contents_of n) res.2 = 0 := by
  rw [emit_successor] at h
  cases hm : maybe_emit_return g ctx pnc u 4 with
  | error e => rw [hm] at h; exact Except.noConfusion h
  | ok o =>
      rw [hm, M.ok_bind] at h
      cases o with
      | some r =>
          have hr : res = r := (Except.ok.inj h).symm
          rw [maybe_emit_return] at hm
          cases hk : g.kind u with
          | basic s =>
              simp only [hk] at hm
              exact absurd (Except.ok.inj hm) (by simp)
          | conditional ce fe il bc =>
              simp only [hk] at hm
              exact absurd (Except.ok.inj hm) (by simp)
          | ret rv real =>
              simp only [hk] at hm
              cases real with
              | true =>
                  rw [if_pos rfl] at hm
                  exact absurd (Except.ok.inj hm) (by simp)
              | false =>
                  rw [if_neg (by simp)] at hm
                  obtain ⟨w, hw, hm⟩ := M.bind_eq_ok hm
                  have hwr := write_return_emitted hw
                  have : w = r := Option.some.inj (Except.ok.inj hm)
                  rw [hr, ← this]
                  exact hwr
      | none =>
          by_cases hn : i + 1 < nodes.length ∧ nodes.getD (i+1) 0 = u
          · rw [if_pos hn] at h
            rw [← Except.ok.inj h]
            exact ⟨rfl, fun n _ => rfl⟩
          · rw [if_neg hn] at h
            rw [← Except.ok.inj h]
            refine ⟨rfl, fun n _ => ?_⟩
            simp [emit_goto, stmts_count, stmt_count, is_contents_of]

/-- The Naive Emitter leaves the emitted set untouched and emits a non-return
node's contents at most as often as the node occurs in the remaining node
list. -/
theorem naive_once (g : Graph) (opts : Options) (nodes : List Nat) :
    ∀ l i ctx r, build_naive_loop g opts nodes i l ctx = .ok r →
      r.1.emitted_nodes = ctx.emitted_nodes ∧
      ∀ n, (g.kind n).isRet = false →
        stmts_count (is_contents_of n) r.2 ≤ l.count n := by
  intro l
  induction l with
  | nil =>
      intro i ctx r h
      rw [build_naive_loop] at h
      rw [← Except.ok.inj h]
      exact ⟨rfl, fun n _ => by simp [stmts_count]⟩
  | cons m rest ih =>
      intro i ctx r h
      rw [build_naive_loop] at h
      cases hk : g.kind m with
      | ret rv rl =>
          simp only [hk] at h
          obtain ⟨he, hc⟩ := ih (i+1) ctx r h
          refine ⟨he, fun n hn => ?_⟩
          calc stmts_count (is_contents_of n) r.2 ≤ rest.count n := hc n hn
            _ ≤ (m :: rest).count n := by rw [List.count_cons]; omega
      | basic s =>
          simp only [hk] at h
          obtain ⟨r1, h1, h⟩ := M.bind_eq_ok h
          obtain ⟨r2, h2, h⟩ := M.bind_eq_ok h
          obtain ⟨he1, hc1⟩ := emit_successor_contents h1
          obtain ⟨he2, hc2⟩ := ih (i+1) r1.1 r2 h2
          rw [← Except.ok.inj h]
          dsimp only
          refine ⟨he2.trans he1, fun n hn => ?_⟩
          rw [stmts_count_append, stmts_count_append, pre_contents_count,
            hc1 n hn, List.count_cons]
          have := hc2 n hn
          by_cases hmn : m = n
          · rw [if_pos hmn, if_pos (by simp [hmn])]; omega
          · rw [if_neg hmn, if_neg (by simp [hmn])]; omega
      | conditional ce fe il bc =>
          simp only [hk] at h
          obtain ⟨rif, hif, h⟩ := M.bind_eq_ok h
          obtain ⟨r1, h1, h⟩ := M.bind_eq_ok h
          obtain ⟨r2, h2, h⟩ := M.bind_eq_ok h
          have hifc : rif.1.emitted_nodes = ctx.emitted_nodes ∧
              ∀ n, (g.kind n).isRet = false →
                stmts_count (is_contents_of n) rif.2 = 0 := by
            cases hm : maybe_emit_return g ctx opts.debug ce 8 with
            | error e => rw [hm] at hif; exact Except.noConfusion hif
            | ok o =>
                rw [hm, M.ok_bind] at hif
                cases o with
                | some rr =>
                    have hr : rif = rr := (Except.ok.inj hif).symm
                    rw [maybe_emit_return] at hm
                    cases hk2 : g.kind ce with
                    | basic s2 =>
                        simp only [hk2] at hm
                        exact absurd (Except.ok.inj hm) (by simp)
                    | conditional c2 f2 i2 b2 =>
                        simp only [hk2] at hm
                        exact absurd (Except.ok.inj hm) (by simp)
                    | ret rv2 real2 =>
                        simp only [hk2] at hm
                        cases real2 with
                        | true =>
                            rw [if_pos rfl] at hm
                            exact absurd (Except.ok.inj hm) (by simp)
                        | false =>
                            rw [if_neg (by simp)] at hm
                            obtain ⟨w, hw, hm⟩ := M.bind_eq_ok hm
                            have hwr := write_return_emitted hw
                            have hwr2 : w = rr := Option.some.inj (Except.ok.inj hm)
                            rw [hr, ← hwr2]
                            exact hwr
                | none =>
                    rw [← Except.ok.inj hif]
                    refine ⟨rfl, fun n _ => ?_⟩
                    simp [emit_goto, stmts_count, stmt_count, is_contents_of]
          obtain ⟨he1, hc1⟩ := emit_successor_contents h1
          obtain ⟨he2, hc2⟩ := ih (i+1) r1.1 r2 h2
          rw [← Except.ok.inj h]
          dsimp only
          refine ⟨he2.trans (he1.trans hifc.1), fun n hn => ?_⟩
          rw [stmts_count_append, stmts_count_append, stmts_count_append,
            pre_contents_count, hc1 n hn, List.count_cons]
          have hifz : stmts_count (is_contents_of n) [.ifElseStmt bc 4 (Body.mk false rif.2) none] =
              stmts_count (is_contents_of n) rif.2 := by
            simp [stmts_count, stmt_count, is_contents_of, body_count, opt_body_count]
          rw [hifz, hifc.2 n hn]
          have := hc2 n hn
          by_cases hmn : m = n
          · rw [if_pos hmn, if_pos (by simp [hmn])]; omega
          · rw [if_neg hmn, if_neg (by simp [hmn])]; omega

/-- C1 (amended): whenever `build_flowgraph_between` encounters a
non-Terminal node that is already in the emitted set, it appends exactly one
goto to that node's label and ends the region; and across a whole successful
`write_function` run the content statements of every non-Terminal node appear
at most once in the Statement Tree (Terminal nodes are exempt from the
emitted-set check and may be duplicated). -/
theorem c1_amended_once_emission (g : Graph) (opts : Options) :
    (∀ fuel ctx start endN indent, start ≠ endN →
      (g.kind start).isRet = false → start ∈ ctx.emitted_nodes →
      build_flowgraph_between g opts (fuel+1) ctx start endN indent =
        .ok ({ ctx with goto_nodes := start :: ctx.goto_nodes },
          Body.mk opts.debug
            [.simpleStmt indent ("goto " ++ label_for_node g start ++ ";")])) ∧
    (∀ fuel ctx2 body rt, write_function g opts fuel = .ok (ctx2, body, rt) →
      ∀ n, (g.kind n).isRet = false →
        body_count (is_contents_of n) body ≤ 1) := by
  constructor
  · intro fuel ctx start endN indent hse hnr hm
    rw [build_flowgraph_between, if_neg hse]
    cases hk : g.kind start with
    | ret rv rl => rw [hk] at hnr; simp [NodeKind.isRet] at hnr
    | basic s =>
        simp only [hk]
        rw [if_pos hm]
        rfl
    | conditional ce fe il bc =>
        simp only [hk]
        rw [if_pos hm]
        rfl
  · intro fuel ctx2 body rt hok n hn
    rw [write_function] at hok
    have hwr0 : ∀ (r : Context × Body) rn real,
        (do
          let r2 ← if ((rn, real) : Nat × Bool).2 = true then do
              let w ← write_return g r.1 opts.debug ((rn, real) : Nat × Bool).1 4 true
              (.ok (w.1, Body.append r.2 w.2) : M (Context × Body))
            else .ok r
          (.ok (r2.1, r2.2, if r2.1.is_void then "void " else "s32 ") :
            M (Context × Body × String))) = .ok (ctx2, body, rt) →
        body_count (is_contents_of n) r.2 ≤ 1 →
        body_count (is_contents_of n) body ≤ 1 := by
      intro r rn real htail hr
      cases real with
      | false =>
          rw [if_neg (by simp)] at htail
          rw [M.ok_bind] at htail
          have hb : body = r.2 :=
            (congrArg (fun t => t.2.1) (Except.ok.inj htail)).symm
          rw [hb]
          exact hr
      | true =>
          rw [if_pos rfl] at htail
          obtain ⟨w, hw, htail⟩ := M.bind_eq_ok htail
          rw [M.ok_bind] at htail
          have hb : body = Body.append r.2 w.2 :=
            (congrArg (fun t => t.2.1) (Except.ok.inj htail)).symm
          rw [hb, body_count_append, (write_return_emitted hw).2 n hn]
          omega
    cases hrn : g.returnNode with
    | some rn =>
        simp only [hrn] at hok
        cases hifs : opts.ifs with
        | true =>
            rw [if_pos hifs] at hok
            obtain ⟨r, hb, hok⟩ := M.bind_eq_ok hok
            obtain ⟨_, hcnt⟩ := (trio_once g opts fuel).1 {} 0 rn 4 r hb
            have h1 := hcnt n hn
            have h2 := emitted_flag_le_one r.1 n
            have h0 : emitted_flag ({} : Context) n = 0 := by
              simp [emitted_flag]
            exact hwr0 r rn true hok (by omega)
        | false =>
            rw [if_neg (by simp [hifs])] at hok
            obtain ⟨r, hb, hok⟩ := M.bind_eq_ok hok
            rw [build_naive] at hb
            obtain ⟨rl, hl, hb⟩ := M.bind_eq_ok hb
            obtain ⟨_, hcnt⟩ := naive_once g opts (List.range g.size)
              (List.range g.size) 0 {} rl hl
            have h1 := hcnt n hn
            have h2 : (List.range g.size).count n ≤ 1 :=
              List.nodup_iff_count_le_one.1 (List.nodup_range _) n
            have hr : r = (rl.1, Body.mk opts.debug rl.2) :=
              (Except.ok.inj hb).symm
            refine hwr0 r rn true hok ?_
            rw [hr]
            have h3 : body_count (is_contents_of n)
                (rl.1, Body.mk opts.debug rl.2).2 =
                stmts_count (is_contents_of n) rl.2 := rfl
            rw [h3]
            omega
    | none =>
        simp only [hrn] at hok
        cases hifs : opts.ifs with
        | true =>
            rw [if_pos hifs] at hok
            obtain ⟨r, hb, hok⟩ := M.bind_eq_ok hok
            obtain ⟨_, hcnt⟩ := (trio_once g opts fuel).1 {} 0 g.size 4 r hb
            have h1 := hcnt n hn
            have h2 := emitted_flag_le_one r.1 n
            have h0 : emitted_flag ({} : Context) n = 0 := by
              simp [emitted_flag]
            exact hwr0 r g.size false hok (by omega)
        | false =>
            rw [if_neg (by simp [hifs])] at hok
            obtain ⟨r, hb, hok⟩ := M.bind_eq_ok hok
            rw [build_naive] at hb
            obtain ⟨rl, hl, hb⟩ := M.bind_eq_ok hb
            obtain ⟨_, hcnt⟩ := naive_once g opts (List.range g.size)
              (List.range g.size) 0 {} rl hl
            have h1 := hcnt n hn
            have h2 : (List.range g.size).count n ≤ 1 :=
              List.nodup_iff_count_le_one.1 (List.nodup_range _) n
            have hr : r = (rl.1, Body.mk opts.debug rl.2) :=
              (Except.ok.inj hb).symm
            refine hwr0 r g.size false hok ?_
            rw [hr]
            have h3 : body_count (is_contents_of n)
                (rl.1, Body.mk opts.debug rl.2).2 =
                stmts_count (is_contents_of n) rl.2 := rfl
            rw [h3]
            omega

/-- Witness for C1 (amended): a re-encountered emitted node yields a single
goto, and on the diamond run every non-terminal node's contents appear at
most once. -/
theorem c1_witness :
    build_flowgraph_between gDia {} 6 { emitted_nodes := [0] } 0 3 4 =
      .ok ({ goto_nodes := [0], emitted_nodes := [0] },
        Body.mk false [.simpleStmt 4 ("goto " ++ label_for_node gDia 0 ++ ";")]) ∧
    body_count (is_contents_of 1)
      (Body.mk false [.labelStmt 0, .contentsStmt 0 4,
        .ifElseStmt (Cond.atom 0).negated 4
          (Body.mk false [.labelStmt 1, .contentsStmt 1 8])
          (some (Body.mk false [.labelStmt 2, .contentsStmt 2 8])),
        .labelStmt 3, .contentsStmt 3 4, .simpleStmt 4 "return x9;"]) ≤ 1 :=
  ⟨(c1_amended_once_emission gDia {}).1 5 { emitted_nodes := [0] } 0 3 4
     (by decide) rfl (by decide),
   (c1_amended_once_emission gDia {}).2 12
     { is_void := false, goto_nodes := [], emitted_nodes := [2, 1, 0] }
     (Body.mk false [.labelStmt 0, .contentsStmt 0 4,
        .ifElseStmt (Cond.atom 0).negated 4
          (Body.mk false [.labelStmt 1, .contentsStmt 1 8])
          (some (Body.mk false [.labelStmt 2, .contentsStmt 2 8])),
        .labelStmt 3, .contentsStmt 3 4, .simpleStmt 4 "return x9;"])
     "s32 " rfl 1 rfl⟩

/-- An avoiding path never starts or ends at the removed node. -/
theorem rw_ne {g : Graph} {e w s : Nat} (h : RW g e w s) : e ≠ w ∧ s ≠ w := by
  induction h with
  | base hne => exact ⟨hne, hne⟩
  | step s t hsw hmem hr ih => exact ⟨ih.1, hsw⟩

/-- A `true` answer of `end_reachable_without` is a genuine avoiding path. -/
theorem rw_of_erw {g : Graph} :
    ∀ {f s e w : Nat}, end_reachable_without g f s e w = .ok true →
      RW g e w s := by
  intro f
  induction f with
  | zero => intro s e w h; exact absurd h (by rw [end_reachable_without]; simp)
  | succ f ih =>
      intro s e w h
      rw [end_reachable_without] at h
      by_cases h1 : e = w ∨ s = w
      · rw [if_pos h1] at h
        exact absurd (Except.ok.inj h) (by simp)
      · rw [if_neg h1] at h
        push_neg at h1
        by_cases h2 : s = e
        · rw [if_pos h2] at h
          rw [h2]
          exact RW.base h1.1
        · rw [if_neg h2] at h
          cases hk : g.kind s with
          | basic succ =>
              simp only [hk] at h
              exact RW.step s succ h1.2 (by rw [followed, hk]; simp) (ih h)
          | ret rv rl =>
              simp only [hk] at h
              exact absurd (Except.ok.inj h) (by simp)
          | conditional ce fe il bc =>
              simp only [hk] at h
              obtain ⟨b1, hb1, h⟩ := M.bind_eq_ok h
              cases b1 with
              | true =>
                  refine RW.step s fe h1.2 ?_ (ih hb1)
                  simp only [followed, hk]
                  cases il <;> simp
              | false =>
                  rw [if_neg (by simp)] at h
                  cases il with
                  | true =>
                      rw [if_neg (by simp)] at h
                      exact absurd (Except.ok.inj h) (by simp)
                  | false =>
                      rw [if_pos (by simp)] at h
                      refine RW.step s ce h1.2 ?_ (ih h)
                      simp [followed, hk]

/-- A completed `false` answer of `end_reachable_without` excludes every
avoiding path. -/
theorem not_rw_of_erw_false {g : Graph} :
    ∀ {f s e w : Nat}, end_reachable_without g f s e w = .ok false →
      ¬ RW g e w s := by
  intro f
  induction f with
  | zero => intro s e w h; exact absurd h (by rw [end_reachable_without]; simp)
  | succ f ih =>
      intro s e w h hrw
      rw [end_reachable_without] at h
      by_cases h1 : e = w ∨ s = w
      · rcases h1 with h1 | h1
        · exact (rw_ne hrw).1 h1
        · exact (rw_ne hrw).2 h1
      · rw [if_neg h1] at h
        by_cases h2 : s = e
        · rw [if_pos h2] at h
          exact absurd (Except.ok.inj h) (by simp)
        · rw [if_neg h2] at h
          cases hrw with
          | base hne => exact h2 rfl
          | step _ t hsw hmem hr =>
              cases hk : g.kind s with
              | basic succ =>
                  simp only [hk] at h
                  simp only [followed, hk, List.mem_singleton] at hmem
                  exact ih h (hmem ▸ hr)
              | ret rv rl =>
                  simp only [followed, hk] at hmem
                  simp at hmem
              | conditional ce fe il bc =>
                  simp only [hk] at h
                  obtain ⟨b1, hb1, h⟩ := M.bind_eq_ok h
                  cases b1 with
                  | true => exact absurd (Except.ok.inj h) (by simp)
                  | false =>
                      rw [if_neg (by simp)] at h
                      simp only [followed, hk] at hmem
                      cases il with
                      | true =>
                          rw [if_pos rfl] at hmem
                          simp only [List.mem_singleton] at hmem
                          exact ih hb1 (hmem ▸ hr)
                      | false =>
                          rw [if_neg (by simp)] at hmem
                          rw [if_pos (by simp)] at h
                          simp only [List.mem_cons, List.mem_singleton,
                            List.not_mem_nil, or_false] at hmem
                          rcases hmem with hmem | hmem
                          · exact ih hb1 (hmem ▸ hr)
                          · exact ih h (hmem ▸ hr)

/-- Invariant of the `get_reachable_nodes` worklist: the visited set and the
stack end up in the result, and the result is closed under followed edges. -/
theorem grn_loop_spec (g : Graph) :
    ∀ f reach stack r,
      get_reachable_nodes_loop g f reach stack = .ok r →
      (∀ x ∈ reach, ∀ u ∈ followed g x, u ∈ reach ∨ u ∈ stack) →
      reach ⊆ r ∧ stack ⊆ r ∧ ∀ x ∈ r, ∀ u ∈ followed g x, u ∈ r := by
  intro f
  induction f with
  | zero =>
      intro reach stack r h
      exact absurd h (by rw [get_reachable_nodes_loop]; simp)
  | succ f ih =>
      intro reach stack r h hinv
      match stack with
      | [] =>
          rw [get_reachable_nodes_loop] at h
          obtain rfl := Except.ok.inj h
          refine ⟨fun x hx => hx, by simp, fun x hx u hu => ?_⟩
          rcases hinv x hx u hu with h2 | h2
          · exact h2
          · simp at h2
      | node :: rest =>
          rw [get_reachable_nodes_loop] at h
          by_cases hm : node ∈ reach
          · rw [if_pos hm] at h
            have hinv2 : ∀ x ∈ reach, ∀ u ∈ followed g x, u ∈ reach ∨ u ∈ rest := by
              intro x hx u hu
              rcases hinv x hx u hu with h2 | h2
              · exact Or.inl h2
              · rcases List.mem_cons.1 h2 with h3 | h3
                · exact Or.inl (h3 ▸ hm)
                · exact Or.inr h3
            obtain ⟨h1, h2, h3⟩ := ih reach rest r h hinv2
            exact ⟨h1, fun x hx => by
              rcases List.mem_cons.1 hx with h4 | h4
              · exact h4 ▸ h1 hm
              · exact h2 h4, h3⟩
          · rw [if_neg hm] at h
            have hinv2 : ∀ x ∈ node :: reach, ∀ u ∈ followed g x,
                u ∈ node :: reach ∨ u ∈ followed g node ++ rest := by
              intro x hx u hu
              rcases List.mem_cons.1 hx with h4 | h4
              · exact Or.inr (List.mem_append_left _ (h4 ▸ hu))
              · rcases hinv x h4 u hu with h2 | h2
                · exact Or.inl (List.mem_cons_of_mem _ h2)
                · rcases List.mem_cons.1 h2 with h3 | h3
                  · exact Or.inl (h3 ▸ List.mem_cons_self _ _)
                  · exact Or.inr (List.mem_append_right _ h3)
            obtain ⟨h1, h2, h3⟩ := ih _ _ r h hinv2
            refine ⟨fun x hx => h1 (List.mem_cons_of_mem _ hx), fun x hx => ?_, h3⟩
            rcases List.mem_cons.1 hx with h4 | h4
            · exact h4 ▸ h1 (List.mem_cons_self _ _)
            · exact h2 (List.mem_append_right _ h4)

/-- Everything reachable from a member of a followed-closed set is in the
set. -/
theorem reach_closed {g : Graph} {r : List Nat}
    (hcl : ∀ x ∈ r, ∀ u ∈ followed g x, u ∈ r) :
    ∀ s n, Reach g s n → s ∈ r → n ∈ r := by
  intro s n h
  induction h with
  | refl s => exact fun hs => hs
  | step s t e hmem _ ih => exact fun hs => ih (hcl s hs t hmem)

/-- `get_reachable_nodes` contains everything reachable from `start`. -/
theorem grn_complete {g : Graph} {f start : Nat} {r : List Nat}
    (h : get_reachable_nodes g f start = .ok r) :
    ∀ n, Reach g start n → n ∈ r := by
  rw [get_reachable_nodes] at h
  obtain ⟨_, h2, h3⟩ := grn_loop_spec g f [] [start] r h (by simp)
  exact fun n hn =>
    reach_closed h3 start n hn (h2 (List.mem_singleton.2 rfl))

/-- Along forward followed edges, reachability is monotone in block
index. -/
theorem reach_idx_le {g : Graph} (hfwd : Fwd g) {a b : Nat}
    (h : Reach g a b) : g.idx a ≤ g.idx b := by
  induction h with
  | refl s => exact le_refl _
  | step s t e hmem _ ih => exact le_trans (le_of_lt (hfwd s t hmem)) ih

/-- A forward path whose target index is bounded is an expandable chain. -/
theorem echain_of_reach {g : Graph} (hfwd : Fwd g) {b : Int} :
    ∀ {s q : Nat}, Reach g s q → g.idx q ≤ b → EChain g b s q := by
  intro s q h
  induction h with
  | refl s => exact fun _ => EChain.refl s
  | step s t e hmem hr ih =>
      intro hb
      refine EChain.step s t e ?_ hmem (ih hb)
      calc g.idx s ≤ g.idx e := le_trans (le_of_lt (hfwd s t hmem)) (reach_idx_le hfwd hr)
        _ ≤ b := hb

/-- If every avoiding path is blocked by `q`, then `q` is on a path. -/
theorem reach_witness_of_not_rw {g : Graph} {endN q : Nat} :
    ∀ {s : Nat}, Reach g s endN → ¬ RW g endN q s → Reach g s q := by
  intro s h
  induction h with
  | refl s =>
      intro hnr
      by_cases hq : s = q
      · exact hq ▸ Reach.refl s
      · exact absurd (RW.base hq) hnr
  | step s t e hmem hr ih =>
      intro hnr
      by_cases hq : s = q
      · exact hq ▸ Reach.refl s
      · refine Reach.step s t q hmem (ih ?_)
        intro hrw
        exact hnr (RW.step s t hq hmem hrw)

/-- Soundness of the `immediate_postdominator` candidate loop: every
collected candidate differs from `start`, respects the index bound, and
blocks all paths. -/
theorem ipd_loop_sound (g : Graph) (efuel start endN : Nat) :
    ∀ f stack pds r,
      ipd_loop g efuel start endN f stack pds = .ok r →
      (∀ x ∈ pds, x ≠ start ∧ g.idx x ≤ g.idx endN ∧ ¬ RW g endN x start) →
      ∀ x ∈ r, x ≠ start ∧ g.idx x ≤ g.idx endN ∧ ¬ RW g endN x start := by
  intro f
  induction f with
  | zero =>
      intro stack pds r h
      exact absurd h (by rw [ipd_loop]; simp)
  | succ f ih =>
      intro stack pds r h hp
      match stack with
      | [] =>
          rw [ipd_loop] at h
          obtain rfl := Except.ok.inj h
          exact hp
      | node :: rest =>
          rw [ipd_loop] at h
          by_cases hidx : g.idx node > g.idx endN
          · rw [if_pos hidx] at h
            exact ih rest pds r h hp
          · rw [if_neg hidx] at h
            obtain ⟨b, hb, h⟩ := M.bind_eq_ok h
            by_cases hcnd : node ≠ start ∧ b = false
            · rw [if_pos hcnd] at h
              refine ih _ _ r h ?_
              intro x hx
              rcases List.mem_append.1 hx with h2 | h2
              · exact hp x h2
              · rw [List.mem_singleton.1 h2]
                refine ⟨hcnd.1, le_of_not_lt hidx, ?_⟩
                exact not_rw_of_erw_false (hcnd.2 ▸ hb)
            · rw [if_neg hcnd] at h
              exact ih _ _ r h hp

/-- Completeness of the `immediate_postdominator` candidate loop: collected
candidates survive, and every blocked node in the expandable chain closure of
the stack is collected. -/
theorem ipd_loop_complete (g : Graph) (efuel start endN : Nat) :
    ∀ f stack pds r,
      ipd_loop g efuel start endN f stack pds = .ok r →
      pds ⊆ r ∧
      ∀ n, (∃ m ∈ stack, EChain g (g.idx endN) m n) →
        g.idx n ≤ g.idx endN → n ≠ start → ¬ RW g endN n start → n ∈ r := by
  intro f
  induction f with
  | zero =>
      intro stack pds r h
      exact absurd h (by rw [ipd_loop]; simp)
  | succ f ih =>
      intro stack pds r h
      match stack with
      | [] =>
          rw [ipd_loop] at h
          obtain rfl := Except.ok.inj h
          refine ⟨fun x hx => hx, fun n hm _ _ _ => ?_⟩
          obtain ⟨m, hm, _⟩ := hm
          simp at hm
      | node :: rest =>
          rw [ipd_loop] at h
          by_cases hidx : g.idx node > g.idx endN
          · rw [if_pos hidx] at h
            obtain ⟨h1, h2⟩ := ih rest pds r h
            refine ⟨h1, fun n hm hn hns hnr => ?_⟩
            obtain ⟨m, hm, hch⟩ := hm
            rcases List.mem_cons.1 hm with h3 | h3
            · cases hch with
              | refl => exact absurd hn (by rw [h3]; omega)
              | step _ t _ hb hmem hch2 =>
                  exact absurd hb (by rw [h3]; omega)
            · exact h2 n ⟨m, h3, hch⟩ hn hns hnr
          · rw [if_neg hidx] at h
            obtain ⟨b, hb, h⟩ := M.bind_eq_ok h
            have hnext : ∀ (pds2 : List Nat),
                ipd_loop g efuel start endN f (followed g node ++ rest) pds2 = .ok r →
                pds2 ⊆ r →
                ∀ n, (∃ m ∈ node :: rest, EChain g (g.idx endN) m n) →
                  g.idx n ≤ g.idx endN → n ≠ start → ¬ RW g endN n start →
                  (n = node → n ∈ r) → n ∈ r := by
              intro pds2 hrun hsub n hm hn hns hnr hself
              obtain ⟨m, hm, hch⟩ := hm
              obtain ⟨_, h2⟩ := ih _ pds2 r hrun
              rcases List.mem_cons.1 hm with h3 | h3
              · subst h3
                cases hch with
                | refl => exact hself rfl
                | step _ t _ hb2 hmem hch2 =>
                    exact h2 n ⟨t, List.mem_append_left _ hmem, hch2⟩ hn hns hnr
              · exact h2 n ⟨m, List.mem_append_right _ h3, hch⟩ hn hns hnr
            by_cases hcnd : node ≠ start ∧ b = false
            · rw [if_pos hcnd] at h
              obtain ⟨hsub, _⟩ := ih _ _ r h
              refine ⟨fun x hx => hsub (List.mem_append_left _ hx),
                fun n hm hn hns hnr => ?_⟩
              exact hnext _ h (fun x hx => hsub hx) n hm hn hns hnr
                (fun he => hsub (List.mem_append_right _
                  (List.mem_singleton.2 he)))
            · rw [if_neg hcnd] at h
              obtain ⟨hsub, _⟩ := ih _ _ r h
              refine ⟨hsub, fun n hm hn hns hnr => ?_⟩
              refine hnext _ h hsub n hm hn hns hnr (fun he => ?_)
              exfalso
              have hbf : b = false := by
                cases b with
                | false => rfl
                | true => exact absurd (rw_of_erw hb) (he ▸ hnr)
              exact hcnd ⟨he ▸ hns, hbf⟩

/-- C2 (amended): on a graph whose followed edges all point forward in block
index, a completed `immediate_postdominator(start, end)` call with `end`
reachable from `start` returns a node `p` distinct from `start`, of block
index at most `end`'s, that lies on every followed path from `start` to `end`
(`end` is unreachable without it), such that every other node of strictly
smaller block index (besides `start`) leaves `end` reachable when removed. -/
theorem c2_amended_postdominator (g : Graph) (fuel start endN p : Nat)
    (hfwd : Fwd g)
    (hre : Reach g start endN)
    (h : immediate_postdominator g fuel start endN = .ok p) :
    p ≠ start ∧ g.idx p ≤ g.idx endN ∧ ¬ RW g endN p start ∧
    ∀ q, q ≠ start → g.idx q < g.idx p → RW g endN q start := by
  rw [immediate_postdominator] at h
  obtain ⟨reach, hg, h⟩ := M.bind_eq_ok h
  have hmem : endN ∈ reach := grn_complete hg endN hre
  rw [if_pos hmem] at h
  obtain ⟨pds, hl, h⟩ := M.bind_eq_ok h
  cases he : earliest g pds with
  | none => rw [he] at h; exact absurd h (by simp)
  | some p2 =>
      rw [he] at h
      obtain rfl : p2 = p := Except.ok.inj h
      have hp := ipd_loop_sound g fuel start endN fuel [start] [] pds hl
        (by simp) p2 (earliest_mem he)
      refine ⟨hp.1, hp.2.1, hp.2.2, ?_⟩
      intro q hqs hqlt
      by_contra hnr
      have hrq : Reach g start q := reach_witness_of_not_rw hre hnr
      have hqb : g.idx q ≤ g.idx endN := le_trans (le_of_lt hqlt) hp.2.1
      have hch : EChain g (g.idx endN) start q := echain_of_reach hfwd hrq hqb
      have hin := (ipd_loop_complete g fuel start endN fuel [start] [] pds hl).2
        q ⟨start, List.mem_singleton.2 rfl, hch⟩ hqb hqs hnr
      have hle := earliest_le he q hin
      omega

/-- Witness for C2 (amended) on the diamond `gDia`: the call returns the end
node 3, which is distinct from the start, bounded by the end's index, blocks
all paths, and is index-minimal among blockers. -/
theorem c2_witness :
    (3 : Nat) ≠ 0 ∧ gDia.idx 3 ≤ gDia.idx 3 ∧ ¬ RW gDia 3 3 0 ∧
    ∀ q, q ≠ 0 → gDia.idx q < gDia.idx 3 → RW gDia 3 q 0 :=
  c2_amended_postdominator gDia 20 0 3 3 (fwd_of_fwdB (by decide))
    (Reach.step 0 1 3 (by decide) (Reach.step 1 3 3 (by decide) (Reach.refl 3)))
    rfl

theorem above_pos (g : Graph) (n : Nat) : 1 ≤ above g n := by
  rw [above]; omega

/-- Following an edge strictly decreases the `above` measure on a closed
forward graph. -/
theorem above_decrease (g : Graph) (hfwd : Fwd g) (hcl : Closed g)
    {n u : Nat} (hu : u ∈ followed g n) : above g u < above g n := by
  rw [above, above]
  have hlt : g.idx n < g.idx u := hfwd n u hu
  have hsub : (Finset.range g.size).filter (fun m => g.idx u < g.idx m) ⊂
      (Finset.range g.size).filter (fun m => g.idx n < g.idx m) := by
    constructor
    · intro m hm
      rw [Finset.mem_filter] at hm ⊢
      exact ⟨hm.1, lt_trans hlt hm.2⟩
    · intro hcon
      have hum : u ∈ (Finset.range g.size).filter (fun m => g.idx n < g.idx m) := by
        rw [Finset.mem_filter, Finset.mem_range]
        exact ⟨hcl n u (followed_subset_edges g n u hu), hlt⟩
      have := hcon hum
      rw [Finset.mem_filter] at this
      exact absurd this.2 (lt_irrefl _)
  have := Finset.card_lt_card hsub
  omega

theorem above_le_size (g : Graph) (n : Nat) : above g n ≤ g.size + 1 := by
  rw [above]
  have := Finset.card_filter_le (Finset.range g.size) (fun m => g.idx n < g.idx m)
  rw [Finset.card_range] at this
  omega

/-- Fuel-stability (and hence termination) of `end_reachable_without`: on a
closed forward graph any fuel of at least `above g s` computes the fixed
boolean answer. -/
theorem erw_stable (g : Graph) (hfwd : Fwd g) (hcl : Closed g) :
    ∀ k s, above g s ≤ k → ∀ e w, ∃ b, ∀ f, above g s ≤ f →
      end_reachable_without g f s e w = .ok b := by
  intro k
  induction k with
  | zero => intro s hs; exact absurd hs (by have := above_pos g s; omega)
  | succ k ih =>
      intro s hs e w
      have hf1 : ∀ f, above g s ≤ f → ∃ f2, f = f2 + 1 := by
        intro f hf
        have := above_pos g s
        exact ⟨f - 1, by omega⟩
      by_cases h1 : e = w ∨ s = w
      · refine ⟨false, fun f hf => ?_⟩
        obtain ⟨f2, rfl⟩ := hf1 f hf
        rw [end_reachable_without, if_pos h1]
      · by_cases h2 : s = e
        · refine ⟨true, fun f hf => ?_⟩
          obtain ⟨f2, rfl⟩ := hf1 f hf
          rw [end_reachable_without, if_neg h1, if_pos h2]
        · cases hk : g.kind s with
          | ret rv rl =>
              refine ⟨false, fun f hf => ?_⟩
              obtain ⟨f2, rfl⟩ := hf1 f hf
              rw [end_reachable_without, if_neg h1, if_neg h2]
              simp only [hk]
          | basic succ =>
              have hmem : succ ∈ followed g s := by rw [followed, hk]; simp
              have hlt := above_decrease g hfwd hcl hmem
              obtain ⟨b, hb⟩ := ih succ (by omega) e w
              refine ⟨b, fun f hf => ?_⟩
              obtain ⟨f2, rfl⟩ := hf1 f hf
              rw [end_reachable_without, if_neg h1, if_neg h2]
              simp only [hk]
              exact hb f2 (by omega)
          | conditional ce fe il bc =>
              have hmemf : fe ∈ followed g s := by
                rw [followed, hk]; cases il <;> simp
              have hltf := above_decrease g hfwd hcl hmemf
              obtain ⟨b1, hb1⟩ := ih fe (by omega) e w
              cases il with
              | true =>
                  refine ⟨b1, fun f hf => ?_⟩
                  obtain ⟨f2, rfl⟩ := hf1 f hf
                  rw [end_reachable_without, if_neg h1, if_neg h2]
                  simp only [hk]
                  rw [hb1 f2 (by omega), M.ok_bind]
                  cases b1 with
                  | true => rw [if_pos rfl]
                  | false =>
                      rw [if_neg (by simp)]
                      rw [if_neg (by simp)]
              | false =>
                  have hmemc : ce ∈ followed g s := by rw [followed, hk]; simp
                  have hltc := above_decrease g hfwd hcl hmemc
                  obtain ⟨b2, hb2⟩ := ih ce (by omega) e w
                  refine ⟨b1 || b2, fun f hf => ?_⟩
                  obtain ⟨f2, rfl⟩ := hf1 f hf
                  rw [end_reachable_without, if_neg h1, if_neg h2]
                  simp only [hk]
                  rw [hb1 f2 (by omega), M.ok_bind]
                  cases b1 with
                  | true => rw [if_pos rfl]; rfl
                  | false =>
                      rw [if_neg (by simp)]
                      rw [if_pos (by simp)]
                      rw [hb2 f2 (by omega)]
                      rfl

theorem followed_length_le (g : Graph) (n : Nat) : (followed g n).length ≤ 2 := by
  rw [followed]
  cases g.kind n with
  | basic s => simp
  | conditional ce fe il bc => cases il <;> simp
  | ret rv rl => simp

theorem nodup_length_lt {l : List Nat} {k x : Nat} (hnd : l.Nodup)
    (hall : ∀ y ∈ l, y < k) (hx : x < k) (hnm : x ∉ l) : l.length < k := by
  have hsub : l.toFinset ⊂ Finset.range k := by
    constructor
    · intro y hy
      rw [List.mem_toFinset] at hy
      rw [Finset.mem_range]
      exact hall y hy
    · intro hcon
      exact hnm (List.mem_toFinset.1 (hcon (Finset.mem_range.2 hx)))
  have hc := Finset.card_lt_card hsub
  rw [Finset.card_range, List.toFinset_card_of_nodup hnd] at hc
  exact hc

/-- Fuel-stability (and hence termination) of the `get_reachable_nodes`
worklist on a closed graph. -/
theorem grn_loop_stable (g : Graph) (hcl : Closed g) :
    ∀ k reach stack, phi g reach stack ≤ k → reach.Nodup →
      (∀ x ∈ reach, x < g.size) → (∀ x ∈ stack, x < g.size) →
      ∃ r, ∀ f, phi g reach stack ≤ f →
        get_reachable_nodes_loop g f reach stack = .ok r := by
  intro k
  induction k with
  | zero =>
      intro reach stack hphi
      exact absurd hphi (by rw [phi]; omega)
  | succ k ih =>
      intro reach stack hphi hnd hvr hvs
      have hf1 : ∀ f, phi g reach stack ≤ f → ∃ f2, f = f2 + 1 := by
        intro f hf
        rw [phi] at hf
        exact ⟨f - 1, by omega⟩
      match stack with
      | [] =>
          refine ⟨reach, fun f hf => ?_⟩
          obtain ⟨f2, rfl⟩ := hf1 f hf
          rw [get_reachable_nodes_loop]
      | node :: rest =>
          have hvrest : ∀ x ∈ rest, x < g.size :=
            fun x hx => hvs x (List.mem_cons_of_mem _ hx)
          by_cases hm : node ∈ reach
          · have hphi2 : phi g reach rest ≤ k := by
              rw [phi] at hphi ⊢
              simp only [List.length_cons] at hphi
              omega
            obtain ⟨r, hr⟩ := ih reach rest hphi2 hnd hvr hvrest
            refine ⟨r, fun f hf => ?_⟩
            obtain ⟨f2, rfl⟩ := hf1 f hf
            rw [get_reachable_nodes_loop, if_pos hm]
            refine hr f2 ?_
            rw [phi] at hf ⊢
            simp only [List.length_cons] at hf
            omega
          · have hnode : node < g.size := hvs node (List.mem_cons_self _ _)
            have hlen : reach.length < g.size := nodup_length_lt hnd hvr hnode hm
            have hphi2 : phi g (node :: reach) (followed g node ++ rest) ≤ k := by
              rw [phi] at hphi ⊢
              simp only [List.length_cons, List.length_append] at hphi ⊢
              have := followed_length_le g node
              omega
            have hnd2 : (node :: reach).Nodup := List.nodup_cons.2 ⟨hm, hnd⟩
            have hvr2 : ∀ x ∈ node :: reach, x < g.size := by
              intro x hx
              rcases List.mem_cons.1 hx with h | h
              · exact h ▸ hnode
              · exact hvr x h
            have hvs2 : ∀ x ∈ followed g node ++ rest, x < g.size := by
              intro x hx
              rcases List.mem_append.1 hx with h | h
              · exact hcl node x (followed_subset_edges g node x h)
              · exact hvrest x h
            obtain ⟨r, hr⟩ := ih _ _ hphi2 hnd2 hvr2 hvs2
            refine ⟨r, fun f hf => ?_⟩
            obtain ⟨f2, rfl⟩ := hf1 f hf
            rw [get_reachable_nodes_loop, if_neg hm]
            refine hr f2 ?_
            rw [phi] at hf ⊢
            simp only [List.length_cons, List.length_append] at hf ⊢
            have := followed_length_le g node
            omega

theorem psi_nil (g : Graph) : psi g [] = 0 := rfl

theorem psi_cons (g : Graph) (n : Nat) (stack : List Nat) :
    psi g (n :: stack) = 3 ^ above g n + psi g stack := by
  simp [psi]

theorem psi_append (g : Graph) (a b : List Nat) :
    psi g (a ++ b) = psi g a + psi g b := by
  simp [psi]

theorem three_pow_above_ge (g : Graph) (n : Nat) : 3 ≤ 3 ^ above g n := by
  have h1 := above_pos g n
  calc (3 : Nat) = 3 ^ 1 := by norm_num
    _ ≤ 3 ^ above g n := Nat.pow_le_pow_right (by norm_num) h1

theorem map_sum_le {l : List Nat} {f : Nat → Nat} {c : Nat}
    (h : ∀ x ∈ l, f x ≤ c) : (l.map f).sum ≤ l.length * c := by
  induction l with
  | nil => simp
  | cons x xs ih =>
      simp only [List.map_cons, List.sum_cons, List.length_cons]
      have h1 := h x (List.mem_cons_self _ _)
      have h2 := ih (fun u hu => h u (List.mem_cons_of_mem _ hu))
      calc f x + (xs.map f).sum ≤ c + xs.length * c := by omega
        _ = (xs.length + 1) * c := by ring

/-- Expanding a node strictly shrinks the exponential worklist measure. -/
theorem psi_followed_lt (g : Graph) (hfwd : Fwd g) (hcl : Closed g) (node : Nat) :
    psi g (followed g node) < 3 ^ above g node := by
  have hble : ∀ u ∈ followed g node, 3 ^ above g u ≤ 3 ^ (above g node - 1) := by
    intro u hu
    have := above_decrease g hfwd hcl hu
    exact Nat.pow_le_pow_right (by norm_num) (by omega)
  have hlen := followed_length_le g node
  have hsum : psi g (followed g node) ≤
      (followed g node).length * 3 ^ (above g node - 1) := map_sum_le hble
  have hpos : 1 ≤ 3 ^ (above g node - 1) := Nat.one_le_pow _ _ (by norm_num)
  have ha := above_pos g node
  have h3 : 3 ^ above g node = 3 ^ (above g node - 1) * 3 := by
    have he : above g node - 1 + 1 = above g node := by omega
    conv_lhs => rw [← he]
    rw [pow_succ]
  have hle2 : (followed g node).length * 3 ^ (above g node - 1) ≤
      2 * 3 ^ (above g node - 1) :=
    Nat.mul_le_mul_right _ hlen
  omega

/-- Fuel-stability (and hence termination) of the `immediate_postdominator`
candidate worklist on a closed forward graph, given a stable answer for every
reachability query it issues. -/
theorem ipd_loop_stable (g : Graph) (hfwd : Fwd g) (hcl : Closed g)
    (start endN A : Nat)
    (herw : ∀ wq, ∃ b, ∀ f, A ≤ f →
      end_reachable_without g f start endN wq = .ok b) :
    ∀ k stack pds, psi g stack ≤ k →
      ∃ r, ∀ efuel lf, A ≤ efuel → psi g stack < lf →
        ipd_loop g efuel start endN lf stack pds = .ok r := by
  intro k
  induction k with
  | zero =>
      intro stack pds hpsi
      match stack with
      | [] =>
          refine ⟨pds, fun efuel lf _ hlf => ?_⟩
          obtain ⟨lf2, rfl⟩ : ∃ lf2, lf = lf2 + 1 := ⟨lf - 1, by omega⟩
          rw [ipd_loop]
      | node :: rest =>
          rw [psi_cons] at hpsi
          have := three_pow_above_ge g node
          omega
  | succ k ih =>
      intro stack pds hpsi
      match stack with
      | [] =>
          refine ⟨pds, fun efuel lf _ hlf => ?_⟩
          obtain ⟨lf2, rfl⟩ : ∃ lf2, lf = lf2 + 1 := ⟨lf - 1, by omega⟩
          rw [ipd_loop]
      | node :: rest =>
          rw [psi_cons] at hpsi
          have h3 := three_pow_above_ge g node
          by_cases hidx : g.idx node > g.idx endN
          · have hpsi2 : psi g rest ≤ k := by omega
            obtain ⟨r, hr⟩ := ih rest pds hpsi2
            refine ⟨r, fun efuel lf hA hlf => ?_⟩
            obtain ⟨lf2, rfl⟩ : ∃ lf2, lf = lf2 + 1 := ⟨lf - 1, by omega⟩
            rw [ipd_loop, if_pos hidx]
            refine hr efuel lf2 hA ?_
            rw [psi_cons] at hlf
            omega
          · obtain ⟨b, hb⟩ := herw node
            have hflt := psi_followed_lt g hfwd hcl node
            have hpsi2 : psi g (followed g node ++ rest) ≤ k := by
              rw [psi_append]
              omega
            by_cases hcnd : node ≠ start ∧ b = false
            · obtain ⟨r, hr⟩ := ih (followed g node ++ rest) (pds ++ [node]) hpsi2
              refine ⟨r, fun efuel lf hA hlf => ?_⟩
              obtain ⟨lf2, rfl⟩ : ∃ lf2, lf = lf2 + 1 := ⟨lf - 1, by omega⟩
              rw [ipd_loop, if_neg hidx, hb efuel hA, M.ok_bind, if_pos hcnd]
              refine hr efuel lf2 hA ?_
              rw [psi_cons] at hlf
              rw [psi_append]
              omega
            · obtain ⟨r, hr⟩ := ih (followed g node ++ rest) pds hpsi2
              refine ⟨r, fun efuel lf hA hlf => ?_⟩
              obtain ⟨lf2, rfl⟩ : ∃ lf2, lf = lf2 + 1 := ⟨lf - 1, by omega⟩
              rw [ipd_loop, if_neg hidx, hb efuel hA, M.ok_bind, if_neg hcnd]
              refine hr efuel lf2 hA ?_
              rw [psi_cons] at hlf
              rw [psi_append]
              omega

/-- C10: on a finite closed graph in which every backward edge is the taken
edge of a loop-head conditional (all followed edges increase the block
index), `end_reachable_without`, `get_reachable_nodes` and
`immediate_postdominator` all terminate: each has a fixed result computed by
every fuel beyond an explicit bound, and the `immediate_postdominator` result
is never the fuel-exhaustion artifact. -/
theorem c10_traversals_terminate (g : Graph) (hfwd : Fwd g) (hcl : Closed g) :
    (∀ s e w, ∃ b, ∀ f, above g s ≤ f →
      end_reachable_without g f s e w = .ok b) ∧
    (∀ s, s < g.size → ∃ r, ∀ f, 2 * g.size + 2 ≤ f →
      get_reachable_nodes g f s = .ok r) ∧
    (∀ s e, s < g.size →
      ∃ res : M Nat, res ≠ .error .outOfFuel ∧
        ∀ f, 3 ^ above g s + 2 * g.size + above g s + 2 ≤ f →
          immediate_postdominator g f s e = res) := by
  have hgrn : ∀ s, s < g.size → ∃ r, ∀ f, 2 * g.size + 2 ≤ f →
      get_reachable_nodes g f s = .ok r := by
    intro s hs
    have hphi : phi g [] [s] = 2 * g.size + 2 := by
      rw [phi]
      simp
      omega
    obtain ⟨r, hr⟩ := grn_loop_stable g hcl (phi g [] [s]) [] [s] (le_refl _)
      List.nodup_nil (by simp) (by simpa using hs)
    refine ⟨r, fun f hf => ?_⟩
    rw [get_reachable_nodes]
    exact hr f (by omega)
  refine ⟨fun s e w => erw_stable g hfwd hcl (above g s) s (le_refl _) e w,
    hgrn, fun s e hs => ?_⟩
  obtain ⟨r, hr⟩ := hgrn s hs
  have herw : ∀ wq, ∃ b, ∀ f, above g s ≤ f →
      end_reachable_without g f s
        (if e ∈ r then e else (max_by_idx g r).getD e) wq = .ok b :=
    fun wq => erw_stable g hfwd hcl (above g s) s (le_refl _) _ wq
  obtain ⟨r2, hr2⟩ := ipd_loop_stable g hfwd hcl s
    (if e ∈ r then e else (max_by_idx g r).getD e) (above g s) herw
    (psi g [s]) [s] [] (le_refl _)
  have hpsi : psi g [s] = 3 ^ above g s := by
    rw [psi_cons, psi_nil]
    omega
  refine ⟨(match earliest g r2 with
    | some p => .ok p
    | none => .error .assertionError), ?_, fun f hf => ?_⟩
  · cases earliest g r2 <;> simp
  · have hasz := above_le_size g s
    rw [immediate_postdominator]
    rw [hr f (by omega), M.ok_bind]
    dsimp only
    rw [hr2 f f (by omega) (by omega)]
    rfl

/-- Witness for C10 on the diamond graph: all three traversals stabilize. -/
theorem c10_witness :
    (∀ s e w, ∃ b, ∀ f, above gDia s ≤ f →
      end_reachable_without gDia f s e w = .ok b) ∧
    (∃ r, ∀ f, 2 * gDia.size + 2 ≤ f → get_reachable_nodes gDia f 0 = .ok r) ∧
    (∃ res : M Nat, res ≠ .error .outOfFuel ∧
      ∀ f, 3 ^ above gDia 0 + 2 * gDia.size + above gDia 0 + 2 ≤ f →
        immediate_postdominator gDia f 0 3 = res) :=
  ⟨(c10_traversals_terminate gDia (fwd_of_fwdB (by decide))
      (closed_of_closedB (by decide))).1,
   (c10_traversals_terminate gDia (fwd_of_fwdB (by decide))
      (closed_of_closedB (by decide))).2.1 0 (by decide),
   (c10_traversals_terminate gDia (fwd_of_fwdB (by decide))
      (closed_of_closedB (by decide))).2.2 0 3 (by decide)⟩

end MipsToC
